import Mathlib

/-!
Noundry Cloud CLI: the template-tree rendering engine.

A shallow embedding of `pkg/generator` (config.go, generator.go) and of the
configuration literal of `cmd/create.go`, followed by theorems about it.

Go strings are byte sequences, so a string is a list of byte values here.
Library functions of the Go standard distribution that the source calls
(`strings`, `unicode`, `unicode/utf8`, `path/filepath`, `os`) are modelled in
namespaces of the same names, after their documented behaviour.  What lies
outside the source files is a parameter: the case tables of `unicode` above
ASCII, the `text/template` engine, the reads of `crypto/rand`, and the
embedded template tree.

The definitions come first, then sample inputs, then the theorems.
-/

/-- A Go string: its bytes, each below 256. -/
abbrev Bytes := List Nat

namespace utf8

/-- The replacement rune U+FFFD, `utf8.RuneError`. -/
def RuneError : Nat := 0xFFFD

/-- UTF-8 encoding of a rune, `utf8.AppendRune`: surrogates and values above
U+10FFFF are written as U+FFFD. -/
def AppendRune (r : Nat) : Bytes :=
  if r < 0x80 then [r]
  else if r < 0x800 then [0xC0 + r / 64, 0x80 + r % 64]
  else if (0xD800 ≤ r ∧ r ≤ 0xDFFF) ∨ 0x10FFFF < r then [0xEF, 0xBF, 0xBD]
  else if r < 0x10000 then [0xE0 + r / 4096, 0x80 + r / 64 % 64, 0x80 + r % 64]
  else [0xF0 + r / 262144, 0x80 + r / 4096 % 64, 0x80 + r / 64 % 64, 0x80 + r % 64]

/-- Continuation byte test. -/
def isCont (b : Nat) : Bool := 0x80 ≤ b && b ≤ 0xBF

/-- Rune and width at the head of a string, `utf8.DecodeRuneInString`: an
invalid or truncated sequence decodes as `(RuneError, 1)`, the empty string as
`(RuneError, 0)`. -/
def DecodeRuneInString : Bytes → Nat × Nat
  | [] => (RuneError, 0)
  | b0 :: rest =>
    if b0 < 0x80 then (b0, 1)
    else if b0 < 0xC2 then (RuneError, 1)
    else if b0 < 0xE0 then
      match rest with
      | b1 :: _ => if isCont b1 then ((b0 % 32) * 64 + b1 % 64, 2) else (RuneError, 1)
      | [] => (RuneError, 1)
    else if b0 < 0xF0 then
      match rest with
      | b1 :: b2 :: _ =>
        let lo := if b0 = 0xE0 then 0xA0 else 0x80
        let hi := if b0 = 0xED then 0x9F else 0xBF
        if lo ≤ b1 ∧ b1 ≤ hi ∧ isCont b2 = true then
          ((b0 % 16) * 4096 + (b1 % 64) * 64 + b2 % 64, 3)
        else (RuneError, 1)
      | _ => (RuneError, 1)
    else if b0 < 0xF5 then
      match rest with
      | b1 :: b2 :: b3 :: _ =>
        let lo := if b0 = 0xF0 then 0x90 else 0x80
        let hi := if b0 = 0xF4 then 0x8F else 0xBF
        if lo ≤ b1 ∧ b1 ≤ hi ∧ isCont b2 = true ∧ isCont b3 = true then
          ((b0 % 8) * 262144 + (b1 % 64) * 4096 + (b2 % 64) * 64 + b3 % 64, 4)
        else (RuneError, 1)
      | _ => (RuneError, 1)
    else (RuneError, 1)

/-- The loop `for _, r := range s`, unrolled: each rune with the bytes it was
decoded from.  The counter bounds the number of iterations; a rune takes at
least one byte, so the length of the string is enough. -/
def rangeAux : Nat → Bytes → List (Nat × Bytes)
  | 0, _ => []
  | _ + 1, [] => []
  | n + 1, b :: s =>
    let d := DecodeRuneInString (b :: s)
    (d.1, (b :: s).take d.2) :: rangeAux n ((b :: s).drop d.2)

/-- The runes of a string in order, as `range` yields them. -/
def range (s : Bytes) : List (Nat × Bytes) := rangeAux s.length s

end utf8

/-- A string literal of the source as bytes. -/
def str (s : String) : Bytes := s.data.flatMap (fun c => utf8.AppendRune c.toNat)

namespace unicode

/-- The case mappings of `unicode.ToUpper` and `unicode.ToLower` for runes
above ASCII (Go reads them from its `CaseRanges` table). -/
structure CaseTables where
  upper : Nat → Nat
  lower : Nat → Nat

/-- The rows of `CaseRanges` for the Latin-1 block U+0080..U+00FF; every other
rune is left as it is by this excerpt. -/
def latin1 : CaseTables where
  upper r :=
    if r = 0xB5 then 0x39C
    else if (0xE0 ≤ r ∧ r ≤ 0xF6) ∨ (0xF8 ≤ r ∧ r ≤ 0xFE) then r - 32
    else if r = 0xFF then 0x178
    else r
  lower r :=
    if (0xC0 ≤ r ∧ r ≤ 0xD6) ∨ (0xD8 ≤ r ∧ r ≤ 0xDE) then r + 32 else r

/-- Upper case of a rune, `unicode.ToUpper`. -/
def ToUpper (T : CaseTables) (r : Nat) : Nat :=
  if r ≤ 0x7F then (if 0x61 ≤ r ∧ r ≤ 0x7A then r - 32 else r) else T.upper r

/-- Lower case of a rune, `unicode.ToLower`. -/
def ToLower (T : CaseTables) (r : Nat) : Nat :=
  if r ≤ 0x7F then (if 0x41 ≤ r ∧ r ≤ 0x5A then r + 32 else r) else T.lower r

/-- White space as `unicode.IsSpace` defines it: the Latin-1 cases of the
function, then the `White_Space` table. -/
def IsSpace (r : Nat) : Bool :=
  if r ≤ 0xFF then
    r = 0x09 || r = 0x0A || r = 0x0B || r = 0x0C || r = 0x0D || r = 0x20 || r = 0x85 || r = 0xA0
  else
    r = 0x1680 || (0x2000 ≤ r && r ≤ 0x200A) || r = 0x2028 || r = 0x2029 || r = 0x202F
      || r = 0x205F || r = 0x3000

end unicode

namespace strings

/-- Mapping of every rune, `strings.Map`: the string is decoded rune by rune
(an invalid byte is the rune U+FFFD) and the mapped runes are encoded again. -/
def Map (mapping : Nat → Nat) (s : Bytes) : Bytes :=
  (utf8.range s).flatMap (fun p => utf8.AppendRune (mapping p.1))

/-- Upper-cased copy, `strings.ToUpper`. -/
def ToUpper (T : unicode.CaseTables) (s : Bytes) : Bytes := Map (unicode.ToUpper T) s

/-- Lower-cased copy, `strings.ToLower`. -/
def ToLower (T : unicode.CaseTables) (s : Bytes) : Bytes := Map (unicode.ToLower T) s

/-- The loop of `strings.FieldsFunc` over the decoded runes; `cur` is the
field being read, if one is open. -/
def fieldsLoop (f : Nat → Bool) : List (Nat × Bytes) → Option Bytes → List Bytes
  | [], none => []
  | [], some w => [w]
  | (r, bs) :: rest, cur =>
    if f r then
      match cur with
      | some w => w :: fieldsLoop f rest none
      | none => fieldsLoop f rest none
    else fieldsLoop f rest (some (cur.getD [] ++ bs))

/-- Maximal runs of runes not satisfying `f`, `strings.FieldsFunc`. -/
def FieldsFunc (s : Bytes) (f : Nat → Bool) : List Bytes := fieldsLoop f (utf8.range s) none

/-- Concatenation with a separator, `strings.Join`. -/
def Join (elems : List Bytes) (sep : Bytes) : Bytes := sep.intercalate elems

/-- Prefix test, `strings.HasPrefix`. -/
def HasPrefix (s pre : Bytes) : Bool := pre.isPrefixOf s

/-- Substring test, `strings.Contains`. -/
def Contains : Bytes → Bytes → Bool
  | [], sub => sub.isPrefixOf []
  | b :: s, sub => sub.isPrefixOf (b :: s) || Contains s sub

/-- The scan of `strings.Replace` for a non-empty `old`: `skip` counts the
bytes of a match still to be passed over. -/
def replaceScan (old new : Bytes) : Nat → Bytes → Bytes
  | _, [] => []
  | skip + 1, _ :: s => replaceScan old new skip s
  | 0, b :: s =>
    if old.isPrefixOf (b :: s) then new ++ replaceScan old new (old.length - 1) s
    else b :: replaceScan old new 0 s

/-- Replacement of all non-overlapping occurrences from the left,
`strings.ReplaceAll`.  With an empty `old` the new text goes before every rune
and after the last one. -/
def ReplaceAll (s old new : Bytes) : Bytes :=
  if old = new then s
  else if old = [] then (utf8.range s).flatMap (fun p => new ++ p.2) ++ new
  else replaceScan old new 0 s

end strings


namespace filepath

/-- A cleaned path: whether it starts at the root, and its components from
the innermost up (`a/b/c` is `[c, b, a]`).  No component is empty or `.`, and
`..` stands only at the outer end of a relative path. -/
structure Path where
  rooted : Bool
  rev : List Bytes
deriving DecidableEq

/-- The components of a string between its slashes. -/
def splitSlash : Bytes → List Bytes
  | [] => [[]]
  | b :: s =>
    if b = 0x2F then [] :: splitSlash s
    else
      match splitSlash s with
      | [] => [[b]]
      | w :: ws => (b :: w) :: ws

/-- One component read by `filepath.Clean`: empty and `.` components are
dropped, `..` removes the component before it, stays at the front of a
relative path and is dropped at the root. -/
def cleanStep (rooted : Bool) (acc : List Bytes) (c : Bytes) : List Bytes :=
  if c = [] ∨ c = str "." then acc
  else if c = str ".." then
    match acc with
    | [] => if rooted then [] else [c]
    | d :: rest => if d = str ".." then c :: d :: rest else rest
  else c :: acc

/-- The shortest equivalent path, `filepath.Clean`. -/
def Clean (s : Bytes) : Path :=
  ⟨s.head? = some 0x2F, (splitSlash s).foldl (cleanStep (s.head? = some 0x2F)) []⟩

/-- The call `filepath.Join(base, name)` for a base that is already clean and
not empty: the components of `name` are read on from the state `Clean` was in
at the end of `base`. -/
def Path.join (base : Path) (name : Bytes) : Path :=
  ⟨base.rooted, (splitSlash name).foldl (cleanStep base.rooted) base.rev⟩

/-- The call `filepath.Join(a, b)` on two strings: empty elements are ignored,
the rest is joined by a slash and cleaned.  (For two empty strings Go returns
the empty string; the source joins with a validated, non-empty name.) -/
def Join (a b : Bytes) : Path :=
  if a = [] then Clean b else Clean (a ++ 0x2F :: b)

/-- The text of a cleaned path. -/
def Path.toString (p : Path) : Bytes :=
  match p.rooted, p.rev with
  | true, comps => 0x2F :: (str "/").intercalate comps.reverse
  | false, [] => str "."
  | false, comps => (str "/").intercalate comps.reverse

end filepath

open filepath (Path)

namespace os

/-- What a path names: a directory, or a file with its content. -/
inductive Node
  | dir
  | file (content : Bytes)
deriving DecidableEq

/-- The state of the file system: what each cleaned path names, if anything. -/
abbrev FS := Path → Option Node

/-- The file system with one entry set. -/
def FS.set (fs : FS) (p : Path) (n : Node) : FS := fun q => if q = p then some n else fs q

/-- The result of `os.Stat`: the working directory, the root and their
parents always exist as directories. -/
def Stat (fs : FS) (p : Path) : Option Node :=
  if p.rev.all (fun c => c = str "..") then some Node.dir else fs p

/-- The call `os.Mkdir`: the path must be new and its parent a directory. -/
def Mkdir (fs : FS) (p : Path) : Except Bytes FS :=
  match p.rev with
  | [] => .error (str "file exists")
  | _ :: parent =>
    if (Stat fs p).isSome then .error (str "file exists")
    else if Stat fs ⟨p.rooted, parent⟩ = some Node.dir then .ok (fs.set p Node.dir)
    else .error (str "no such file or directory")

/-- The recursion of `os.MkdirAll` on the components of the path: an existing
directory is success, an existing file an error, and otherwise the parent is
made first and then the directory itself. -/
def mkdirAllRev (fs : FS) (rooted : Bool) : List Bytes → Except Bytes FS
  | [] => .ok fs
  | c :: parent =>
    match Stat fs ⟨rooted, c :: parent⟩ with
    | some Node.dir => .ok fs
    | some (Node.file _) => .error (str "not a directory")
    | none =>
      match mkdirAllRev fs rooted parent with
      | .error e => .error e
      | .ok fs1 => Mkdir fs1 ⟨rooted, c :: parent⟩

/-- The call `os.MkdirAll(path, 0755)`. -/
def MkdirAll (fs : FS) (p : Path) : Except Bytes FS := mkdirAllRev fs p.rooted p.rev

/-- The call `os.Create(path)`: the file is created or truncated; a directory
at the path, or a parent that is not a directory, is an error. -/
def Create (fs : FS) (p : Path) : Except Bytes FS :=
  match p.rev with
  | [] => .error (str "is a directory")
  | _ :: parent =>
    match Stat fs p with
    | some Node.dir => .error (str "is a directory")
    | _ =>
      if Stat fs ⟨p.rooted, parent⟩ = some Node.dir then .ok (fs.set p (Node.file []))
      else .error (str "no such file or directory")

end os

namespace generator

/-- Modelled from the spec: the feature toggles of the configuration (cache,
object storage, mail, message queue, background jobs, worker process), each a
boolean, and the optional database-engine name.  generator.go and create.go
read and set them as fields of `ProjectConfig`; the declaration of the struct
in config.go does not list them. -/
structure FeatureToggles where
  Database : Bytes
  IncludeCache : Bool
  IncludeStorage : Bool
  IncludeMail : Bool
  IncludeMessageQueue : Bool
  IncludeJobs : Bool
  IncludeWorker : Bool

/-- The configuration, `ProjectConfig` of config.go, with the feature toggles
the other files use on it. -/
structure ProjectConfig extends FeatureToggles where
  Name : Bytes
  ProjectName : Bytes
  Template : Bytes
  OutputDir : Bytes
  Framework : Bytes
  Port : Int
  MinInstances : Int
  MaxInstances : Int
  CPU : Bytes
  Memory : Bytes

/-- The map `supportedTemplates`; a key that is not in a Go map reads as false. -/
def supportedTemplates (template : Bytes) : Bool :=
  template = str "dotnet-webapp-aws" || template = str "dotnet-webapp-gcp"
    || template = str "dotnet-webapp-azure"

/-- The function `ValidateTemplate` of config.go. -/
def ValidateTemplate (template : Bytes) : Except Bytes Unit :=
  if !supportedTemplates template then
    .error (str "unsupported template \'" ++ template
      ++ str "\'. Run \'noundry list\' to see available templates")
  else .ok ()

/-- The method `Validate` of config.go. -/
def ProjectConfig.Validate (c : ProjectConfig) : Except Bytes Unit :=
  if c.Name = [] then .error (str "project name is required")
  else if c.Port ≤ 0 ∨ c.Port > 65535 then .error (str "port must be between 1 and 65535")
  else if c.MinInstances < 0 then .error (str "min-instances must be >= 0")
  else if c.MaxInstances ≤ 0 then .error (str "max-instances must be > 0")
  else if c.MinInstances > c.MaxInstances then
    .error (str "min-instances cannot be greater than max-instances")
  else ValidateTemplate c.Template

/-- The method `GetCloudDefaults` of config.go, returning the updated copy. -/
def ProjectConfig.GetCloudDefaults (c : ProjectConfig) : ProjectConfig :=
  if c.Template = str "dotnet-webapp-aws" then
    { c with CPU := if c.CPU = [] then str "1024" else c.CPU,
             Memory := if c.Memory = [] then str "2048" else c.Memory }
  else if c.Template = str "dotnet-webapp-gcp" then
    { c with CPU := if c.CPU = [] then str "1000m" else c.CPU,
             Memory := if c.Memory = [] then str "2Gi" else c.Memory }
  else if c.Template = str "dotnet-webapp-azure" then
    { c with CPU := if c.CPU = [] then str "1.0" else c.CPU,
             Memory := if c.Memory = [] then str "2.0Gi" else c.Memory }
  else c

/-- The switch of `GenerateProject` on the template: it has no default case,
so any other identifier leaves the empty string. -/
def templateDirOf (template : Bytes) : Bytes :=
  if template = str "dotnet-webapp-aws" then str "templates/aws"
  else if template = str "dotnet-webapp-gcp" then str "templates/gcp"
  else if template = str "dotnet-webapp-azure" then str "templates/azure"
  else []

/-- The separator test that `toTitleCase` hands to `FieldsFunc`. -/
def isSeparator (c : Nat) : Bool := c = 0x2D || c = 0x5F || unicode.IsSpace c

/-- The function `toTitleCase` of generator.go.  `word[0]` is the first byte of
the word and `string(word[0])` the UTF-8 text of the rune with that value. -/
def toTitleCase (T : unicode.CaseTables) (s : Bytes) : Bytes :=
  let words := strings.FieldsFunc s isSeparator
  let words := words.map (fun word =>
    match word with
    | [] => word
    | b :: rest => strings.ToUpper T (utf8.AppendRune b) ++ strings.ToLower T rest)
  strings.Join words []

/-- The function `processFileName` of generator.go. -/
def processFileName (fileName : Bytes) (config : ProjectConfig) : Bytes :=
  strings.ReplaceAll fileName (str "{{.ProjectName}}") config.ProjectName

/-- Two upper-case hexadecimal digits of a byte, the verb `%X` on a byte slice. -/
def hexByte (b : Nat) : Bytes :=
  let digit := fun (n : Nat) => if n < 10 then 0x30 + n else 0x41 + (n - 10)
  [digit (b / 16 % 16), digit (b % 16)]

/-- The buffer `make([]byte, 16)` after `rand.Read`: sixteen bytes whatever
the source delivered. -/
def fill16 (r : Bytes) : Bytes := (r.map (fun b => b % 256) ++ List.replicate 16 0).take 16

/-- The function `generateGUID` of generator.go on the bytes read. -/
def generateGUID (r : Bytes) : Bytes :=
  let b := fill16 r
  let hex := fun (lo hi : Nat) => ((b.drop lo).take (hi - lo)).flatMap hexByte
  hex 0 4 ++ str "-" ++ hex 4 6 ++ str "-" ++ hex 6 8 ++ str "-" ++ hex 8 10 ++ str "-" ++ hex 10 16

/-- The function `getDefaultRegion` of generator.go. -/
def getDefaultRegion (template : Bytes) : Bytes :=
  if template = str "dotnet-webapp-aws" ∨ template = str "aspire-webapp-aws"
      ∨ template = str "aspire-fullstack-aws" then str "us-east-1"
  else if template = str "dotnet-webapp-gcp" ∨ template = str "aspire-webapp-gcp"
      ∨ template = str "aspire-fullstack-gcp" then str "us-central1"
  else if template = str "dotnet-webapp-azure" ∨ template = str "aspire-webapp-azure"
      ∨ template = str "aspire-fullstack-azure" then str "eastus"
  else str "us-east-1"

/-- The function `getDefaultDatabase` of generator.go. -/
def getDefaultDatabase (config : ProjectConfig) : Bytes :=
  if config.Database ≠ [] then config.Database
  else if config.Template = str "aspire-webapp-aws"
      ∨ config.Template = str "aspire-fullstack-aws" then str "PostgreSQL"
  else if config.Template = str "aspire-webapp-gcp"
      ∨ config.Template = str "aspire-fullstack-gcp" then str "PostgreSQL"
  else if config.Template = str "aspire-webapp-azure"
      ∨ config.Template = str "aspire-fullstack-azure" then str "SqlServer"
  else str "PostgreSQL"

/-- The function `isAspireTemplate` of generator.go. -/
def isAspireTemplate (template : Bytes) : Bool := strings.HasPrefix template (str "aspire-")

/-- The function `isFullStackTemplate` of generator.go. -/
def isFullStackTemplate (template : Bytes) : Bool := strings.Contains template (str "fullstack")

/-- The map `templateData` of `processTemplateFile`, one field for each key. -/
structure TemplateData where
  Name : Bytes
  ProjectName : Bytes
  Framework : Bytes
  Port : Int
  MinInstances : Int
  MaxInstances : Int
  CPU : Bytes
  Memory : Bytes
  ECRRepoName : Bytes
  ServiceName : Bytes
  Region : Bytes
  ProjectGuid : Bytes
  AppHostGuid : Bytes
  ApiGuid : Bytes
  ServiceDefaultsGuid : Bytes
  WorkerGuid : Bytes
  Database : Bytes
  IncludeCache : Bool
  IncludeStorage : Bool
  IncludeMail : Bool
  IncludeMessageQueue : Bool
  IncludeJobs : Bool
  IncludeWorker : Bool
deriving DecidableEq

/-- The map literal of `processTemplateFile`.  `rand k` is what the k-th call
of `rand.Read` in the process delivers and `draws` the number of calls made so
far; the five calls of `generateGUID` are made in the order of the literal. -/
def templateData (T : unicode.CaseTables) (rand : Nat → Bytes) (draws : Nat)
    (config : ProjectConfig) : TemplateData where
  Name := config.Name
  ProjectName := toTitleCase T config.Name
  Framework := config.Framework
  Port := config.Port
  MinInstances := config.MinInstances
  MaxInstances := config.MaxInstances
  CPU := config.CPU
  Memory := config.Memory
  ECRRepoName := str "noundry" ++ str "/" ++ strings.ToLower T config.Name
  ServiceName := strings.ToLower T config.Name
  Region := getDefaultRegion config.Template
  ProjectGuid := generateGUID (rand draws)
  AppHostGuid := generateGUID (rand (draws + 1))
  ApiGuid := generateGUID (rand (draws + 2))
  ServiceDefaultsGuid := generateGUID (rand (draws + 3))
  WorkerGuid := generateGUID (rand (draws + 4))
  Database := getDefaultDatabase config
  IncludeCache := config.IncludeCache || isAspireTemplate config.Template
  IncludeStorage := config.IncludeStorage || isFullStackTemplate config.Template
  IncludeMail := config.IncludeMail || isFullStackTemplate config.Template
  IncludeMessageQueue := config.IncludeMessageQueue || isFullStackTemplate config.Template
  IncludeJobs := config.IncludeJobs || isFullStackTemplate config.Template
  IncludeWorker := config.IncludeWorker || isFullStackTemplate config.Template

mutual
/-- An entry of the embedded template tree `templatesFS`: a file with its
bytes, or a directory with its listing. -/
inductive Asset
  | file (name : Bytes) (content : Bytes)
  | dir (name : Bytes) (children : AssetList)
/-- A directory listing, in the order `ReadDir` returns it. -/
inductive AssetList
  | nil
  | cons (head : Asset) (tail : AssetList)
end

/-- The name of an entry, `entry.Name()`. -/
def Asset.name : Asset → Bytes
  | .file name _ => name
  | .dir name _ => name

/-- The package `text/template` as the source uses it: whether `Parse` accepts
a text, and what `Execute` writes for it on given data, with whether it
finished without error. -/
structure Engine where
  Parse : Bytes → Bool
  Execute : Bytes → TemplateData → Bytes × Bool

/-- What a run depends on besides the configuration: the case tables, the
reads of `crypto/rand`, the template engine, and the listing
`templatesFS.ReadDir` gives for a root directory (none when it fails). -/
structure Env where
  tables : unicode.CaseTables
  rand : Nat → Bytes
  engine : Engine
  templatesFS : Bytes → Option AssetList

/-- The state a run changes: the file system and the number of reads made
from `crypto/rand`. -/
structure World where
  fs : os.FS
  draws : Nat

/-- The function `processTemplateFile` of generator.go, on the bytes
`ReadFile` returns for the source path (the read of an embedded file that was
listed does not fail). -/
def processTemplateFile (E : Env) (sourcePath : Bytes) (content : Bytes) (destPath : Path)
    (config : ProjectConfig) (w : World) : Except Bytes Unit × World :=
  if !E.engine.Parse content then
    (.error (str "failed to parse template " ++ sourcePath), w)
  else
    match os.Create w.fs destPath with
    | .error e =>
      (.error (str "failed to create file " ++ destPath.toString ++ str ": " ++ e), w)
    | .ok fs1 =>
      let data := templateData E.tables E.rand w.draws config
      let out := E.engine.Execute content data
      let w1 : World := ⟨fs1.set destPath (os.Node.file out.1), w.draws + 5⟩
      if out.2 then (.ok (), w1)
      else (.error (str "failed to execute template " ++ sourcePath), w1)

/-- The source path of an entry, `filepath.Join(templateDir, entry.Name())`, as
text; it names the entry in reads and messages only. -/
def sourcePathOf (templateDir : Bytes) (name : Bytes) : Bytes :=
  (filepath.Join templateDir name).toString

mutual
/-- The body of the loop of `processTemplateDir` for one entry. -/
def processEntry (E : Env) (config : ProjectConfig) (templateDir : Bytes) (outputPath : Path) :
    Asset → World → Except Bytes Unit × World
  | .file name content, w =>
    processTemplateFile E (sourcePathOf templateDir name) content
      (outputPath.join (processFileName name config)) config w
  | .dir name children, w =>
    let destPath := outputPath.join (processFileName name config)
    match os.MkdirAll w.fs destPath with
    | .error e =>
      (.error (str "failed to create directory " ++ destPath.toString ++ str ": " ++ e), w)
    | .ok fs1 =>
      processEntries E config (sourcePathOf templateDir name) destPath children ⟨fs1, w.draws⟩
/-- The loop of `processTemplateDir` over the listing of a directory; it
stops at the first error. -/
def processEntries (E : Env) (config : ProjectConfig) (templateDir : Bytes) (outputPath : Path) :
    AssetList → World → Except Bytes Unit × World
  | .nil, w => (.ok (), w)
  | .cons entry rest, w =>
    match processEntry E config templateDir outputPath entry w with
    | (.error e, w1) => (.error e, w1)
    | (.ok _, w1) => processEntries E config templateDir outputPath rest w1
end

/-- The function `processTemplateDir` of generator.go, on what
`templatesFS.ReadDir(templateDir)` returns.  Its recursive call on a listed
subdirectory is `processEntries` on the listing of that entry. -/
def processTemplateDir (E : Env) (templateDir : Bytes) (listing : Option AssetList)
    (outputPath : Path) (config : ProjectConfig) (w : World) : Except Bytes Unit × World :=
  match listing with
  | none => (.error (str "failed to read template directory: " ++ templateDir), w)
  | some entries => processEntries E config templateDir outputPath entries w

/-- The function `GenerateProject` of generator.go. -/
def GenerateProject (E : Env) (config : ProjectConfig) (w : World) : Except Bytes Unit × World :=
  match config.Validate with
  | .error e => (.error e, w)
  | .ok _ =>
    let config := config.GetCloudDefaults
    let outputPath := filepath.Join config.OutputDir config.Name
    match os.MkdirAll w.fs outputPath with
    | .error e => (.error (str "failed to create output directory: " ++ e), w)
    | .ok fs1 =>
      let templateDir := templateDirOf config.Template
      processTemplateDir E templateDir (E.templatesFS templateDir) outputPath config
        ⟨fs1, w.draws⟩

end generator

namespace cmd

/-- The function `toTitleCase` of create.go, a second copy of the one in
generator.go. -/
def toTitleCase (T : unicode.CaseTables) (s : Bytes) : Bytes :=
  let words := strings.FieldsFunc s (fun c => c = 0x2D || c = 0x5F || unicode.IsSpace c)
  let words := words.map (fun word =>
    match word with
    | [] => word
    | b :: rest => strings.ToUpper T (utf8.AppendRune b) ++ strings.ToLower T rest)
  strings.Join words []

/-- The flag variables of create.go. -/
structure Flags where
  projectName : Bytes
  outputDir : Bytes
  framework : Bytes
  port : Int
  minInstances : Int
  maxInstances : Int
  cpu : Bytes
  memory : Bytes
  database : Bytes
  includeCache : Bool
  includeStorage : Bool
  includeMail : Bool
  includeMessageQueue : Bool
  includeJobs : Bool
  includeWorker : Bool

/-- The configuration literal of `createProject`.  `services` is the map that
`parseServicesFlag` returns, read at a key. -/
def createProjectConfig (T : unicode.CaseTables) (fl : Flags) (template : Bytes)
    (services : Bytes → Bool) : generator.ProjectConfig where
  Name := fl.projectName
  ProjectName := toTitleCase T fl.projectName
  Template := template
  OutputDir := fl.outputDir
  Framework := fl.framework
  Port := fl.port
  MinInstances := fl.minInstances
  MaxInstances := fl.maxInstances
  CPU := fl.cpu
  Memory := fl.memory
  Database := fl.database
  IncludeCache := fl.includeCache || services (str "cache") || services (str "all")
  IncludeStorage := fl.includeStorage || services (str "storage") || services (str "all")
  IncludeMail := fl.includeMail || services (str "mail") || services (str "all")
  IncludeMessageQueue := fl.includeMessageQueue || services (str "queue") || services (str "all")
  IncludeJobs := fl.includeJobs || services (str "jobs") || services (str "all")
  IncludeWorker := fl.includeWorker || services (str "worker") || services (str "all")

end cmd

open generator

deriving instance DecidableEq for Except

/-! ## Notions of the specification -/

/-- The placeholder token for a key: two opening braces and a dot, the key,
two closing braces. -/
def tokenFor (key : Bytes) : Bytes := [0x7B, 0x7B, 0x2E] ++ key ++ [0x7D, 0x7D]

/-- The placeholder `processFileName` looks for. -/
def projectNameToken : Bytes := str "{{.ProjectName}}"

/-- The pieces of a list of runes between the runes satisfying `f`. -/
def splitRunes (f : Nat → Bool) : List Nat → List (List Nat)
  | [] => [[]]
  | r :: rs =>
    if f r then [] :: splitRunes f rs
    else
      match splitRunes f rs with
      | [] => [[r]]
      | w :: ws => (r :: w) :: ws

/-- The display name as the specification words it: the name is split at
hyphens, underscores and white space, empty words are dropped, the first
letter of each word is upper-cased and its other letters lower-cased, and the
words are concatenated with nothing between them. -/
def titleCaseSpec (T : unicode.CaseTables) (s : Bytes) : Bytes :=
  let letters := (utf8.range s).map Prod.fst
  let words := (splitRunes isSeparator letters).filter (fun w => !w.isEmpty)
  (words.map (fun w =>
    match w with
    | [] => []
    | first :: others =>
      utf8.AppendRune (unicode.ToUpper T first)
        ++ others.flatMap (fun r => utf8.AppendRune (unicode.ToLower T r)))).flatten

/-- The context with its five identifier values blanked. -/
def generator.TemplateData.clearGuids (d : TemplateData) : TemplateData :=
  { d with ProjectGuid := [], AppHostGuid := [], ApiGuid := [], ServiceDefaultsGuid := [],
           WorkerGuid := [] }

/-! ## Trees and their images -/

/-- The path one segment below a path. -/
def filepath.Path.child (p : Path) (seg : Bytes) : Path := ⟨p.rooted, seg :: p.rev⟩

namespace generator

mutual
/-- The number of files in an entry. -/
def Asset.fileCount : Asset → Nat
  | .file _ _ => 1
  | .dir _ children => children.fileCount
/-- The number of files in a listing, subdirectories included. -/
def AssetList.fileCount : AssetList → Nat
  | .nil => 0
  | .cons a rest => a.fileCount + rest.fileCount
end

/-- The kind of a tree entry. -/
inductive Kind
  | dir
  | file
deriving DecidableEq

/-- The kind of what a path names. -/
def kindOf : Option os.Node → Option Kind
  | none => none
  | some os.Node.dir => some Kind.dir
  | some (os.Node.file _) => some Kind.file

/-- A path lies below another: same root, and the components of the other
under at least one more. -/
def below (out p : Path) : Prop := p.rooted = out.rooted ∧ ∃ rel, rel ≠ [] ∧ p.rev = rel ++ out.rev

mutual
/-- The paths of an entry and of all it holds, every segment passed through
`processFileName`, below `base`, each with its kind. -/
def Asset.rendered (config : ProjectConfig) (base : Path) : Asset → List (Path × Kind)
  | .file name _ => [(base.child (processFileName name config), Kind.file)]
  | .dir name children =>
    (base.child (processFileName name config), Kind.dir)
      :: children.rendered config (base.child (processFileName name config))
/-- The rendered paths of all entries of a listing. -/
def AssetList.rendered (config : ProjectConfig) (base : Path) : AssetList → List (Path × Kind)
  | .nil => []
  | .cons a rest => a.rendered config base ++ rest.rendered config base
end

/-- A plain path segment: not empty, without a slash, and neither `.` nor `..`. -/
def plainSegment (s : Bytes) : Bool :=
  decide (s ≠ []) && decide (0x2F ∉ s) && decide (s ≠ str ".") && decide (s ≠ str "..")

mutual
/-- Every name in the entry is rendered to a plain path segment. -/
def Asset.plainNames (config : ProjectConfig) : Asset → Bool
  | .file name _ => plainSegment (processFileName name config)
  | .dir name children => plainSegment (processFileName name config) && children.plainNames config
/-- Every name in the listing is rendered to a plain path segment. -/
def AssetList.plainNames (config : ProjectConfig) : AssetList → Bool
  | .nil => true
  | .cons a rest => a.plainNames config && rest.plainNames config
end

/-- The names of the entries of a listing, rendered. -/
def AssetList.renderedNames (config : ProjectConfig) : AssetList → List Bytes
  | .nil => []
  | .cons a rest => processFileName a.name config :: rest.renderedNames config

mutual
/-- In the entry, no two entries of one directory are rendered to one name. -/
def Asset.distinctNames (config : ProjectConfig) : Asset → Bool
  | .file _ _ => true
  | .dir _ children => children.distinctNames config
/-- In the listing, no two entries of one directory are rendered to one name. -/
def AssetList.distinctNames (config : ProjectConfig) : AssetList → Bool
  | .nil => true
  | .cons a rest =>
    decide (processFileName a.name config ∉ rest.renderedNames config)
      && a.distinctNames config && rest.distinctNames config
end

/-- What a successful walk does to the disk, for the rendered paths `I` of the
entries walked: nothing changes off those paths, the directories after the
walk are those before it and the rendered ones, and likewise the files. -/
def Mirrors (I : List (Path × Kind)) (fs fs2 : os.FS) : Prop :=
  (∀ p, (∀ k, (p, k) ∉ I) → fs2 p = fs p)
    ∧ (∀ p, fs2 p = some os.Node.dir ↔ fs p = some os.Node.dir ∨ (p, Kind.dir) ∈ I)
    ∧ (∀ p, (∃ x, fs2 p = some (os.Node.file x))
        ↔ (∃ x, fs p = some (os.Node.file x)) ∨ (p, Kind.file) ∈ I)

end generator

/-! ## Sample inputs -/

/-- An engine that accepts every text and writes it out unchanged. -/
def echoEngine : Engine where
  Parse := fun _ => true
  Execute := fun content _ => (content, true)

/-- The template root of the end-to-end scenario: one directory
`{{.ProjectName}}.Api` holding one file `Program.cs`. -/
def scenarioTree : AssetList :=
  .cons (.dir (str "{{.ProjectName}}.Api")
    (.cons (.file (str "Program.cs") (str "var port = {{.Port}};")) .nil)) .nil

/-- An environment whose AWS root is the scenario tree. -/
def scenarioEnv : Env where
  tables := unicode.latin1
  rand := fun k => List.replicate 16 k
  engine := echoEngine
  templatesFS := fun d => if d = str "templates/aws" then some scenarioTree else none

/-- The flags of `ndc create dotnet-webapp-aws --name orders --max-instances 3`. -/
def ordersFlags : cmd.Flags where
  projectName := str "orders"
  outputDir := str "."
  framework := str "net9.0"
  port := 8080
  minInstances := 1
  maxInstances := 3
  cpu := []
  memory := []
  database := []
  includeCache := false
  includeStorage := false
  includeMail := false
  includeMessageQueue := false
  includeJobs := false
  includeWorker := false

/-- The configuration `createProject` builds from those flags. -/
def ordersConfig : ProjectConfig :=
  cmd.createProjectConfig unicode.latin1 ordersFlags (str "dotnet-webapp-aws") (fun _ => false)

/-- The same configuration as a caller of the package may fill it in, with a
display name of its own choice. -/
def shopConfig : ProjectConfig := { ordersConfig with ProjectName := str "Shop" }

/-- A configuration with a template identifier that is not supported. -/
def lambdaConfig : ProjectConfig := { ordersConfig with Template := str "dotnet-lambda-aws" }

/-- A configuration for a full-stack template, all explicit flags off. -/
def fullstackConfig : ProjectConfig := { ordersConfig with Template := str "aspire-fullstack-aws" }

/-- A world with nothing on disk and no random reads made. -/
def emptyWorld : World := ⟨fun _ => none, 0⟩

/-- The accepted configuration for the Google Cloud template. -/
def gcpConfig : ProjectConfig := { ordersConfig with Template := str "dotnet-webapp-gcp" }

/-- The full-stack configuration with the cache flag switched on. -/
def fullstackCacheConfig : ProjectConfig := { fullstackConfig with IncludeCache := true }

/-- The path the file of the scenario is written to. -/
def scenarioDest : Path :=
  ((filepath.Join (str ".") (str "orders")).join (str "Orders.Api")).join (str "Program.cs")

/-- An engine that writes the value bound to `ProjectGuid`. -/
def guidEngine : Engine where
  Parse := fun _ => true
  Execute := fun _ data => (data.ProjectGuid, true)

/-- A template root of two files. -/
def twoFileTree : AssetList :=
  .cons (.file (str "a.sln") (str "{{.ProjectGuid}}"))
    (.cons (.file (str "b.csproj") (str "{{.ProjectGuid}}")) .nil)

/-- An environment with the two-file root, whose k-th random read is sixteen
bytes of value k. -/
def guidEnv : Env where
  tables := unicode.latin1
  rand := fun k => List.replicate 16 k
  engine := guidEngine
  templatesFS := fun d => if d = str "templates/aws" then some twoFileTree else none

/-- A template root with two files whose names are rendered to one name for
the project `orders`. -/
def collideTree : AssetList :=
  .cons (.file (str "Orders") (str "first"))
    (.cons (.file (str "{{.ProjectName}}") (str "second")) .nil)

/-- An environment with the colliding root. -/
def collideEnv : Env where
  tables := unicode.latin1
  rand := fun k => List.replicate 16 k
  engine := echoEngine
  templatesFS := fun d => if d = str "templates/aws" then some collideTree else none

/-- The destination root of the project `orders`. -/
def ordersRoot : Path := ⟨false, [str "orders"]⟩

/-- A disk holding the destination root and nothing else. -/
def ordersWorld : World := ⟨emptyWorld.fs.set ordersRoot os.Node.dir, 0⟩

/-- An engine that writes the value bound to `ProjectName`. -/
def nameEngine : Engine where
  Parse := fun _ => true
  Execute := fun _ data => (data.ProjectName, true)

/-- A template root of one file, with the token in its name. -/
def nameTree : AssetList :=
  .cons (.file (str "{{.ProjectName}}.txt") (str "{{.ProjectName}}")) .nil

/-- An environment with that root and the engine that writes `ProjectName`. -/
def nameEnv : Env where
  tables := unicode.latin1
  rand := fun k => List.replicate 16 k
  engine := nameEngine
  templatesFS := fun d => if d = str "templates/aws" then some nameTree else none

namespace generator

mutual
/-- What a walk is to write for an entry: for each file in it, its rendered
path below `base` and the text `Execute` writes for its body on the context
built at the reads made when the walk reaches it; `k` is the number of reads
made when the walk reaches the entry. -/
def Asset.outputs (E : Env) (config : ProjectConfig) (base : Path) (k : Nat) :
    Asset → List (Path × Bytes)
  | .file name content =>
    [(base.child (processFileName name config),
      (E.engine.Execute content (templateData E.tables E.rand k config)).1)]
  | .dir name children =>
    children.outputs E config (base.child (processFileName name config)) k
/-- What a walk is to write for a listing: each entry is reached five reads
later for every file before it. -/
def AssetList.outputs (E : Env) (config : ProjectConfig) (base : Path) (k : Nat) :
    AssetList → List (Path × Bytes)
  | .nil => []
  | .cons a rest =>
    a.outputs E config base k ++ rest.outputs E config base (k + 5 * a.fileCount)
end

end generator

/-! ## Decoding -/

theorem decodeRune_width_pos (b : Nat) (s : Bytes) :
    1 ≤ (utf8.DecodeRuneInString (b :: s)).2 := by
  simp only [utf8.DecodeRuneInString]
  repeat' split
  all_goals simp

theorem rangeAux_covers (n : Nat) (s : Bytes) (hn : s.length ≤ n) :
    (utf8.rangeAux n s).flatMap Prod.snd = s := by
  induction n generalizing s with
  | zero =>
    have : s = [] := List.length_eq_zero.1 (Nat.le_zero.1 hn)
    rw [this]
    rfl
  | succ n ih =>
    cases s with
    | nil => rfl
    | cons b t =>
      have hw := decodeRune_width_pos b t
      have hl : ((b :: t).drop (utf8.DecodeRuneInString (b :: t)).2).length ≤ n := by
        rw [List.length_drop]
        simp only [List.length_cons] at hn ⊢
        omega
      simp only [utf8.rangeAux, List.flatMap_cons, ih _ hl]
      exact List.take_append_drop _ _

/-- The loop over the runes of a string reads the whole string: the pieces it
decodes, put together, are the string. -/
theorem range_covers (s : Bytes) : (utf8.range s).flatMap Prod.snd = s :=
  rangeAux_covers s.length s (Nat.le_refl _)

/-! ## Validation (C2, C3, C10) -/

theorem supportedTemplates_iff (t : Bytes) :
    supportedTemplates t = true ↔
      t = str "dotnet-webapp-aws" ∨ t = str "dotnet-webapp-gcp" ∨ t = str "dotnet-webapp-azure" := by
  simp [supportedTemplates, or_assoc]

theorem validateTemplate_ok_iff (t : Bytes) :
    ValidateTemplate t = .ok () ↔ supportedTemplates t = true := by
  unfold ValidateTemplate
  cases h : supportedTemplates t <;> simp

theorem validate_ok_or_error (c : ProjectConfig) :
    c.Validate = .ok () ∨ ∃ e, c.Validate = .error e := by
  cases h : c.Validate with
  | ok u => exact Or.inl rfl
  | error e => exact Or.inr ⟨e, rfl⟩

theorem validate_ok_iff (c : ProjectConfig) :
    c.Validate = .ok () ↔
      (c.Name ≠ [] ∧ 1 ≤ c.Port ∧ c.Port ≤ 65535 ∧ 0 ≤ c.MinInstances
        ∧ c.MinInstances ≤ c.MaxInstances ∧ 0 < c.MaxInstances
        ∧ (c.Template = str "dotnet-webapp-aws" ∨ c.Template = str "dotnet-webapp-gcp"
            ∨ c.Template = str "dotnet-webapp-azure")) := by
  unfold ProjectConfig.Validate
  by_cases h1 : c.Name = []
  · simp [h1]
  by_cases h2 : c.Port ≤ 0 ∨ c.Port > 65535
  · rw [if_neg h1, if_pos h2]
    constructor
    · intro h; cases h
    · rintro ⟨-, h3, h4, -⟩; omega
  by_cases h3 : c.MinInstances < 0
  · rw [if_neg h1, if_neg h2, if_pos h3]
    constructor
    · intro h; cases h
    · rintro ⟨-, -, -, h4, -⟩; omega
  by_cases h4 : c.MaxInstances ≤ 0
  · rw [if_neg h1, if_neg h2, if_neg h3, if_pos h4]
    constructor
    · intro h; cases h
    · rintro ⟨-, -, -, -, -, h5, -⟩; omega
  by_cases h5 : c.MinInstances > c.MaxInstances
  · rw [if_neg h1, if_neg h2, if_neg h3, if_neg h4, if_pos h5]
    constructor
    · intro h; cases h
    · rintro ⟨-, -, -, -, h6, -⟩; omega
  rw [if_neg h1, if_neg h2, if_neg h3, if_neg h4, if_neg h5, validateTemplate_ok_iff,
    supportedTemplates_iff]
  constructor
  · intro h
    exact ⟨h1, by omega, by omega, by omega, by omega, by omega, h⟩
  · intro h
    exact h.2.2.2.2.2.2

/-- C2: the method `Validate` returns no error exactly when the name is
non-empty, the port lies in 1..65535, 0 ≤ MinInstances ≤ MaxInstances,
MaxInstances > 0 and the template is one of the three enumerated identifiers;
in every other case it returns an error. -/
theorem validate_accepts_iff (c : ProjectConfig) :
    (c.Validate = .ok () ↔
      (c.Name ≠ [] ∧ 1 ≤ c.Port ∧ c.Port ≤ 65535 ∧ 0 ≤ c.MinInstances
        ∧ c.MinInstances ≤ c.MaxInstances ∧ 0 < c.MaxInstances
        ∧ (c.Template = str "dotnet-webapp-aws" ∨ c.Template = str "dotnet-webapp-gcp"
            ∨ c.Template = str "dotnet-webapp-azure")))
    ∧ ((∃ e, c.Validate = .error e) ↔
      ¬ (c.Name ≠ [] ∧ 1 ≤ c.Port ∧ c.Port ≤ 65535 ∧ 0 ≤ c.MinInstances
        ∧ c.MinInstances ≤ c.MaxInstances ∧ 0 < c.MaxInstances
        ∧ (c.Template = str "dotnet-webapp-aws" ∨ c.Template = str "dotnet-webapp-gcp"
            ∨ c.Template = str "dotnet-webapp-azure"))) := by
  refine ⟨validate_ok_iff c, ?_⟩
  rw [← validate_ok_iff c]
  constructor
  · rintro ⟨e, he⟩ h
    rw [h] at he
    cases he
  · intro h
    rcases validate_ok_or_error c with h1 | h1
    · exact absurd h1 h
    · exact h1

/-- C3: a configuration whose template is not one of the enumerated
identifiers, and likewise any configuration `Validate` rejects, makes
`GenerateProject` return the error of `Validate` and leave the world as it
was: the file system after the call is the one before it. -/
theorem generateProject_invalid_no_mutation (E : Env) (c : ProjectConfig) (w : World)
    (h : supportedTemplates c.Template = false ∨ c.Validate ≠ .ok ()) :
    ∃ e, c.Validate = .error e ∧ GenerateProject E c w = (.error e, w)
      ∧ (GenerateProject E c w).2.fs = w.fs := by
  have hbad : c.Validate ≠ .ok () := by
    rcases h with h | h
    · intro hok
      have := ((validate_ok_iff c).1 hok).2.2.2.2.2.2
      rw [← supportedTemplates_iff, h] at this
      cases this
    · exact h
  rcases validate_ok_or_error c with h1 | ⟨e, he⟩
  · exact absurd h1 hbad
  · refine ⟨e, he, ?_, ?_⟩ <;> simp [GenerateProject, he]

theorem generateProject_invalid_no_mutation_witness :
    ∃ e, lambdaConfig.Validate = .error e
      ∧ GenerateProject scenarioEnv lambdaConfig emptyWorld = (.error e, emptyWorld)
      ∧ (GenerateProject scenarioEnv lambdaConfig emptyWorld).2.fs = emptyWorld.fs :=
  generateProject_invalid_no_mutation scenarioEnv lambdaConfig emptyWorld (Or.inl (by decide))

theorem getCloudDefaults_template (c : ProjectConfig) :
    c.GetCloudDefaults.Template = c.Template := by
  unfold ProjectConfig.GetCloudDefaults
  split_ifs <;> rfl

/-- C10: for a configuration `Validate` accepts, the switch of
`GenerateProject` selects one of `templates/aws`, `templates/gcp`,
`templates/azure`, never the empty string, distinct accepted identifiers
select distinct directories, and the directory `processTemplateDir` is called
with is the selected one. -/
theorem accepted_template_selects_directory (E : Env) (c c2 : ProjectConfig) (w : World)
    (h : c.Validate = .ok ()) (h2 : c2.Validate = .ok ()) :
    (templateDirOf c.Template = str "templates/aws" ∨ templateDirOf c.Template = str "templates/gcp"
        ∨ templateDirOf c.Template = str "templates/azure")
      ∧ templateDirOf c.Template ≠ []
      ∧ (templateDirOf c.Template = templateDirOf c2.Template → c.Template = c2.Template)
      ∧ (∀ fs1, os.MkdirAll w.fs (filepath.Join c.GetCloudDefaults.OutputDir c.GetCloudDefaults.Name)
            = .ok fs1 →
          GenerateProject E c w =
            processTemplateDir E (templateDirOf c.Template) (E.templatesFS (templateDirOf c.Template))
              (filepath.Join c.GetCloudDefaults.OutputDir c.GetCloudDefaults.Name)
              c.GetCloudDefaults ⟨fs1, w.draws⟩) := by
  have t1 := ((validate_ok_iff c).1 h).2.2.2.2.2.2
  have t2 := ((validate_ok_iff c2).1 h2).2.2.2.2.2.2
  refine ⟨?_, ?_, ?_, ?_⟩
  · rcases t1 with t | t | t <;> rw [t] <;> decide
  · rcases t1 with t | t | t <;> rw [t] <;> decide
  · rcases t1 with t | t | t <;> rcases t2 with u | u | u <;> rw [t, u] <;> decide
  · intro fs1 hfs
    simp only [GenerateProject, h, hfs, getCloudDefaults_template]

theorem accepted_template_selects_directory_witness :
    (templateDirOf ordersConfig.Template = str "templates/aws"
        ∨ templateDirOf ordersConfig.Template = str "templates/gcp"
        ∨ templateDirOf ordersConfig.Template = str "templates/azure")
      ∧ templateDirOf ordersConfig.Template ≠ []
      ∧ (templateDirOf ordersConfig.Template = templateDirOf gcpConfig.Template →
          ordersConfig.Template = gcpConfig.Template)
      ∧ (∀ fs1, os.MkdirAll emptyWorld.fs
            (filepath.Join ordersConfig.GetCloudDefaults.OutputDir ordersConfig.GetCloudDefaults.Name)
            = .ok fs1 →
          GenerateProject scenarioEnv ordersConfig emptyWorld =
            processTemplateDir scenarioEnv (templateDirOf ordersConfig.Template)
              (scenarioEnv.templatesFS (templateDirOf ordersConfig.Template))
              (filepath.Join ordersConfig.GetCloudDefaults.OutputDir
                ordersConfig.GetCloudDefaults.Name)
              ordersConfig.GetCloudDefaults ⟨fs1, emptyWorld.draws⟩) :=
  accepted_template_selects_directory scenarioEnv ordersConfig gcpConfig emptyWorld
    (by decide) (by decide)

/-! ## Strings -/

theorem contains_iff (s sub : Bytes) :
    strings.Contains s sub = true ↔ ∃ pre post, s = pre ++ sub ++ post := by
  induction s with
  | nil =>
    simp only [strings.Contains, List.isPrefixOf_iff_prefix]
    constructor
    · intro h
      have : sub = [] := List.prefix_nil.mp h
      exact ⟨[], [], by simp [this]⟩
    · rintro ⟨pre, post, h⟩
      have h1 : pre ++ sub ++ post = [] := h.symm
      simp only [List.append_eq_nil] at h1
      rw [h1.1.2]
  | cons b s ih =>
    simp only [strings.Contains, Bool.or_eq_true, List.isPrefixOf_iff_prefix, ih]
    constructor
    · rintro (⟨post, h⟩ | ⟨pre, post, h⟩)
      · exact ⟨[], post, by simp [h]⟩
      · exact ⟨b :: pre, post, by simp [h]⟩
    · rintro ⟨pre, post, h⟩
      cases pre with
      | nil => exact Or.inl ⟨post, by simpa using h.symm⟩
      | cons p pre =>
        simp only [List.cons_append, List.cons.injEq] at h
        exact Or.inr ⟨pre, post, h.2⟩

theorem replaceScan_skip (old new : Bytes) (xs rest : Bytes) :
    strings.replaceScan old new xs.length (xs ++ rest) = strings.replaceScan old new 0 rest := by
  induction xs with
  | nil => rfl
  | cons x xs ih => simpa [strings.replaceScan] using ih

theorem replaceScan_zero_cons (old new : Bytes) (b : Nat) (s : Bytes) :
    strings.replaceScan old new 0 (b :: s)
      = if old.isPrefixOf (b :: s) then new ++ strings.replaceScan old new (old.length - 1) s
        else b :: strings.replaceScan old new 0 s := by
  simp only [strings.replaceScan]

theorem replaceScan_match (o : Nat) (os new rest : Bytes) :
    strings.replaceScan (o :: os) new 0 ((o :: os) ++ rest)
      = new ++ strings.replaceScan (o :: os) new 0 rest := by
  have hp : (o :: os).isPrefixOf (o :: (os ++ rest)) = true := by
    rw [List.isPrefixOf_iff_prefix]
    exact ⟨rest, rfl⟩
  show strings.replaceScan (o :: os) new 0 (o :: (os ++ rest)) = _
  rw [replaceScan_zero_cons, if_pos hp]
  show new ++ strings.replaceScan (o :: os) new os.length (os ++ rest) = _
  rw [replaceScan_skip]

theorem replaceScan_literal (o : Nat) (os new seg rest : Bytes) (h : o ∉ seg) :
    strings.replaceScan (o :: os) new 0 (seg ++ rest)
      = seg ++ strings.replaceScan (o :: os) new 0 rest := by
  induction seg with
  | nil => rfl
  | cons b seg ih =>
    have hb : o ≠ b := fun e => h (by simp [e])
    have hseg : o ∉ seg := fun e => h (List.mem_cons_of_mem _ e)
    have hp : ¬ ((o :: os).isPrefixOf (b :: (seg ++ rest)) = true) := by
      simp [List.isPrefixOf, hb]
    show strings.replaceScan (o :: os) new 0 (b :: (seg ++ rest)) = _
    rw [replaceScan_zero_cons, if_neg hp, ih hseg]
    rfl

theorem replaceScan_literal_end (o : Nat) (os new seg : Bytes) (h : o ∉ seg) :
    strings.replaceScan (o :: os) new 0 seg = seg := by
  have := replaceScan_literal o os new seg [] h
  simpa [strings.replaceScan] using this

/-- A text made of pieces free of the first byte of `old`, with `old` between
them, is rewritten by the scan into the same pieces with `new` between them. -/
theorem replaceScan_intercalate (o : Nat) (os new : Bytes) (seg : Bytes) (segs : List Bytes)
    (h : ∀ x ∈ seg :: segs, o ∉ x) :
    strings.replaceScan (o :: os) new 0 ((o :: os).intercalate (seg :: segs))
      = new.intercalate (seg :: segs) := by
  induction segs generalizing seg with
  | nil =>
    simp only [List.intercalate, List.intersperse, List.flatten, List.append_nil]
    exact replaceScan_literal_end o os new seg (h seg (by simp))
  | cons s2 segs ih =>
    have e1 : (o :: os).intercalate (seg :: s2 :: segs)
        = seg ++ ((o :: os) ++ (o :: os).intercalate (s2 :: segs)) := by
      simp [List.intercalate, List.intersperse]
    have e2 : new.intercalate (seg :: s2 :: segs) = seg ++ (new ++ new.intercalate (s2 :: segs)) := by
      simp [List.intercalate, List.intersperse]
    rw [e1, e2, replaceScan_literal o os new seg _ (h seg (by simp)), replaceScan_match,
      ih s2 (fun x hx => h x (List.mem_cons_of_mem _ hx))]

theorem projectNameToken_eq : projectNameToken = 0x7B :: projectNameToken.tail := by decide

/-- The rendering of a name by `processFileName` when the name is literal text
without an opening brace around occurrences of the token. -/
theorem processFileName_intercalate (c : ProjectConfig) (seg : Bytes) (segs : List Bytes)
    (h : ∀ x ∈ seg :: segs, 0x7B ∉ x) :
    processFileName (projectNameToken.intercalate (seg :: segs)) c
      = c.ProjectName.intercalate (seg :: segs) := by
  unfold processFileName strings.ReplaceAll
  by_cases e : str "{{.ProjectName}}" = c.ProjectName
  · rw [if_pos e, ← e]; rfl
  · rw [if_neg e, if_neg (by decide)]
    have := replaceScan_intercalate 0x7B projectNameToken.tail c.ProjectName seg segs h
    rw [← projectNameToken_eq] at this
    exact this

theorem contains_cons_false (b : Nat) (s sub : Bytes) (h : strings.Contains (b :: s) sub = false) :
    ¬ sub <+: b :: s ∧ strings.Contains s sub = false := by
  simp only [strings.Contains, Bool.or_eq_false_iff] at h
  refine ⟨?_, h.2⟩
  intro hp
  have := List.isPrefixOf_iff_prefix.2 hp
  rw [h.1] at this
  cases this

/-- A text that has no border (no proper end of it is also its beginning)
cannot begin inside a piece that does not hold it and run on into an
occurrence of itself. -/
theorem not_prefix_across (old seg rest : Bytes)
    (hub : ∀ j, 1 ≤ j → j < old.length → old.drop j ≠ old.take (old.length - j))
    (hseg : seg ≠ []) (hnp : ¬ old <+: seg) : ¬ old <+: seg ++ (old ++ rest) := by
  intro hp
  by_cases hl : old.length ≤ seg.length
  · exact hnp (List.prefix_of_prefix_length_le hp (List.prefix_append seg _) hl)
  · have hlt : seg.length < old.length := Nat.lt_of_not_le hl
    obtain ⟨t, ht⟩ := List.prefix_of_prefix_length_le (List.prefix_append seg (old ++ rest)) hp
      (Nat.le_of_lt hlt)
    have hlen : old.length = seg.length + t.length := by rw [← ht, List.length_append]
    have hp1 : seg ++ t <+: seg ++ (old ++ rest) := by rw [ht]; exact hp
    have hp2 : t <+: old ++ rest := (List.prefix_append_right_inj seg).1 hp1
    have hp3 : t <+: old :=
      List.prefix_of_prefix_length_le hp2 (List.prefix_append old rest) (by omega)
    have e1 : t = old.take t.length := List.prefix_iff_eq_take.1 hp3
    have e2 : old.drop seg.length = t := by rw [← ht, List.drop_left]
    have hpos : 1 ≤ seg.length := by
      cases seg with
      | nil => exact absurd rfl hseg
      | cons a l => simp
    apply hub seg.length hpos hlt
    rw [e2]
    have : old.length - seg.length = t.length := by omega
    rw [this]
    exact e1

theorem replaceScan_piece (o : Nat) (os new seg rest : Bytes)
    (hub : ∀ j, 1 ≤ j → j < (o :: os).length →
      (o :: os).drop j ≠ (o :: os).take ((o :: os).length - j))
    (h : strings.Contains seg (o :: os) = false) :
    strings.replaceScan (o :: os) new 0 (seg ++ ((o :: os) ++ rest))
      = seg ++ strings.replaceScan (o :: os) new 0 ((o :: os) ++ rest) := by
  induction seg with
  | nil => rfl
  | cons b seg ih =>
    obtain ⟨hnp, hrest⟩ := contains_cons_false b seg _ h
    have hno := not_prefix_across (o :: os) (b :: seg) rest hub (by simp) hnp
    have hp : ¬ ((o :: os).isPrefixOf (b :: (seg ++ ((o :: os) ++ rest))) = true) := by
      intro hpre
      exact hno (List.isPrefixOf_iff_prefix.1 hpre)
    show strings.replaceScan (o :: os) new 0 (b :: (seg ++ ((o :: os) ++ rest))) = _
    rw [replaceScan_zero_cons, if_neg hp, ih hrest]
    rfl

theorem replaceScan_piece_end (old new seg : Bytes) (h : strings.Contains seg old = false) :
    strings.replaceScan old new 0 seg = seg := by
  induction seg with
  | nil => rfl
  | cons b seg ih =>
    obtain ⟨hnp, hrest⟩ := contains_cons_false b seg _ h
    have hp : ¬ (old.isPrefixOf (b :: seg) = true) := fun hpre =>
      hnp (List.isPrefixOf_iff_prefix.1 hpre)
    rw [replaceScan_zero_cons, if_neg hp, ih hrest]

/-- A text made of pieces that do not hold `old`, with `old` between them, is
rewritten by the scan into the same pieces with `new` between them, when `old`
has no border. -/
theorem replaceScan_pieces (o : Nat) (os new : Bytes) (seg : Bytes) (segs : List Bytes)
    (hub : ∀ j, 1 ≤ j → j < (o :: os).length →
      (o :: os).drop j ≠ (o :: os).take ((o :: os).length - j))
    (h : ∀ x ∈ seg :: segs, strings.Contains x (o :: os) = false) :
    strings.replaceScan (o :: os) new 0 ((o :: os).intercalate (seg :: segs))
      = new.intercalate (seg :: segs) := by
  induction segs generalizing seg with
  | nil =>
    simp only [List.intercalate, List.intersperse, List.flatten, List.append_nil]
    exact replaceScan_piece_end (o :: os) new seg (h seg (by simp))
  | cons s2 segs ih =>
    have e1 : (o :: os).intercalate (seg :: s2 :: segs)
        = seg ++ ((o :: os) ++ (o :: os).intercalate (s2 :: segs)) := by
      simp [List.intercalate, List.intersperse]
    have e2 : new.intercalate (seg :: s2 :: segs) = seg ++ (new ++ new.intercalate (s2 :: segs)) := by
      simp [List.intercalate, List.intersperse]
    rw [e1, e2, replaceScan_piece o os new seg _ hub (h seg (by simp)), replaceScan_match,
      ih s2 (fun x hx => h x (List.mem_cons_of_mem _ hx))]

theorem projectNameToken_unbordered (j : Nat) (h1 : 1 ≤ j) (h2 : j < projectNameToken.length) :
    projectNameToken.drop j ≠ projectNameToken.take (projectNameToken.length - j) := by
  have h3 : j < 16 := h2
  interval_cases j <;> decide

/-- The rendering of a name by `processFileName`: the pieces of the name
between the occurrences of the token are kept as they are, and the field
`ProjectName` stands where the token stood. -/
theorem processFileName_pieces (c : ProjectConfig) (seg : Bytes) (segs : List Bytes)
    (h : ∀ x ∈ seg :: segs, strings.Contains x projectNameToken = false) :
    processFileName (projectNameToken.intercalate (seg :: segs)) c
      = c.ProjectName.intercalate (seg :: segs) := by
  unfold processFileName strings.ReplaceAll
  by_cases e : str "{{.ProjectName}}" = c.ProjectName
  · rw [if_pos e, ← e]; rfl
  · rw [if_neg e, if_neg (by decide)]
    have hub := projectNameToken_unbordered
    rw [projectNameToken_eq] at hub h
    have := replaceScan_pieces 0x7B projectNameToken.tail c.ProjectName seg segs hub h
    rw [← projectNameToken_eq] at this
    exact this

theorem mem_piece_infix (new : Bytes) (x : Bytes) (segs : List Bytes) (hx : x ∈ segs) :
    ∃ pre post, new.intercalate segs = pre ++ x ++ post := by
  induction segs with
  | nil => cases hx
  | cons seg segs ih =>
    cases segs with
    | nil =>
      have : x = seg := by simpa using hx
      exact ⟨[], [], by simp [List.intercalate, List.intersperse, this]⟩
    | cons s2 segs =>
      have e : new.intercalate (seg :: s2 :: segs) = seg ++ (new ++ new.intercalate (s2 :: segs)) := by
        simp [List.intercalate, List.intersperse]
      rcases List.mem_cons.1 hx with h | h
      · exact ⟨[], new ++ new.intercalate (s2 :: segs), by rw [e, h]; simp⟩
      · obtain ⟨pre, post, hpp⟩ := ih h
        exact ⟨seg ++ new ++ pre, post, by rw [e, hpp]; simp⟩

theorem contains_of_piece (new sub x : Bytes) (segs : List Bytes) (hx : x ∈ segs)
    (h : strings.Contains x sub = true) : strings.Contains (new.intercalate segs) sub = true := by
  obtain ⟨p1, p2, h1⟩ := (contains_iff _ _).1 h
  obtain ⟨pre, post, h2⟩ := mem_piece_infix new x segs hx
  exact (contains_iff _ _).2 ⟨pre ++ p1, p2 ++ post, by rw [h2, h1]; simp⟩

/-! ## Names (C5, C6, C7) -/

theorem createProjectConfig_projectName (T : unicode.CaseTables) (fl : cmd.Flags)
    (template : Bytes) (services : Bytes → Bool) :
    (cmd.createProjectConfig T fl template services).ProjectName
      = generator.toTitleCase T (cmd.createProjectConfig T fl template services).Name := rfl

theorem processFileName_token (c : ProjectConfig) :
    processFileName projectNameToken c = c.ProjectName := by
  have h := processFileName_pieces c [] [[]] (by decide)
  simpa [List.intercalate, List.intersperse] using h

/-- The names and the bodies of a run agree on the project name exactly when
the field `ProjectName` is the title case of the name. -/
theorem processFileName_agrees_iff (T : unicode.CaseTables) (rand : Nat → Bytes) (k : Nat)
    (c : ProjectConfig) :
    (∀ n, processFileName n c
        = strings.ReplaceAll n (str "{{.ProjectName}}") (templateData T rand k c).ProjectName)
      ↔ c.ProjectName = generator.toTitleCase T c.Name := by
  constructor
  · intro h
    have h1 := h projectNameToken
    rw [processFileName_token c] at h1
    have h2 := processFileName_token { c with ProjectName := generator.toTitleCase T c.Name }
    rw [h1]
    exact h2
  · intro h n
    show strings.ReplaceAll n _ c.ProjectName = strings.ReplaceAll n _ (generator.toTitleCase T c.Name)
    rw [h]

/-- C5 fails on the code at a valid configuration whose field `ProjectName` is
not the title case of its name: `processFileName` renders names with the field
(`Shop.Api`, `Shop.txt`) while `processTemplateFile` binds the key
`ProjectName` to the title-cased name (`Orders`), so in one run of
`GenerateProject` the file `orders/Shop.txt` holds the text `Orders`. -/
theorem names_and_bodies_disagree_on_project_name :
    shopConfig.Validate = .ok ()
      ∧ processFileName (str "{{.ProjectName}}.Api") shopConfig = str "Shop.Api"
      ∧ (templateData unicode.latin1 nameEnv.rand 0 shopConfig).ProjectName = str "Orders"
      ∧ processFileName (str "{{.ProjectName}}.Api") shopConfig
          ≠ strings.ReplaceAll (str "{{.ProjectName}}.Api") (str "{{.ProjectName}}")
              (generator.toTitleCase unicode.latin1 shopConfig.Name)
      ∧ (GenerateProject nameEnv shopConfig emptyWorld).1 = .ok ()
      ∧ (GenerateProject nameEnv shopConfig emptyWorld).2.fs (ordersRoot.child (str "Shop.txt"))
          = some (os.Node.file (str "Orders"))
      ∧ (GenerateProject nameEnv shopConfig emptyWorld).2.fs (ordersRoot.child (str "Orders.txt"))
          = none := by
  decide

/-- C6, as stated, fails: the directory entry `{{.ProjectName}}.Api` is not
rendered to `OrdersApi`; the dot of the template text stays. -/
theorem scenario_name_is_not_OrdersApi :
    ordersConfig.ProjectName = str "Orders"
      ∧ processFileName (str "{{.ProjectName}}.Api") ordersConfig ≠ str "OrdersApi" := by
  decide

/-- C6, amended: for the configuration of the scenario the directory entry
`{{.ProjectName}}.Api` is rendered to `Orders.Api`, and with any engine that
accepts and executes the file, `GenerateProject` on an empty disk succeeds and
writes `Program.cs` to `orders/Orders.Api/Program.cs`, leaving nothing at
`orders/OrdersApi/Program.cs`. -/
theorem scenario_lands_in_Orders_dot_Api (E : Env)
    (htree : E.templatesFS (str "templates/aws") = some scenarioTree)
    (hparse : E.engine.Parse (str "var port = {{.Port}};") = true)
    (hexec : (E.engine.Execute (str "var port = {{.Port}};")
        (templateData E.tables E.rand 0 ordersConfig.GetCloudDefaults)).2 = true) :
    processFileName (str "{{.ProjectName}}.Api") ordersConfig = str "Orders.Api"
      ∧ scenarioDest.toString = str "orders/Orders.Api/Program.cs"
      ∧ (GenerateProject E ordersConfig emptyWorld).1 = .ok ()
      ∧ (GenerateProject E ordersConfig emptyWorld).2.fs scenarioDest
          = some (os.Node.file (E.engine.Execute (str "var port = {{.Port}};")
              (templateData E.tables E.rand 0 ordersConfig.GetCloudDefaults)).1)
      ∧ (GenerateProject E ordersConfig emptyWorld).2.fs
          (filepath.Clean (str "orders/OrdersApi/Program.cs")) = none := by
  have hv : ordersConfig.Validate = .ok () := by decide
  have hd : templateDirOf ordersConfig.GetCloudDefaults.Template = str "templates/aws" := by decide
  have hout : filepath.Join ordersConfig.GetCloudDefaults.OutputDir ordersConfig.GetCloudDefaults.Name
      = ⟨false, [str "orders"]⟩ := by decide
  have hm1 : os.MkdirAll emptyWorld.fs ⟨false, [str "orders"]⟩
      = .ok (emptyWorld.fs.set ⟨false, [str "orders"]⟩ os.Node.dir) := by
    rfl
  have hn1 : processFileName (str "{{.ProjectName}}.Api") ordersConfig.GetCloudDefaults
      = str "Orders.Api" := by decide
  have hn2 : processFileName (str "Program.cs") ordersConfig.GetCloudDefaults
      = str "Program.cs" := by decide
  have hj1 : (⟨false, [str "orders"]⟩ : Path).join (str "Orders.Api")
      = ⟨false, [str "Orders.Api", str "orders"]⟩ := by decide
  have hj2 : (⟨false, [str "Orders.Api", str "orders"]⟩ : Path).join (str "Program.cs")
      = scenarioDest := by decide
  have hm2 : os.MkdirAll (emptyWorld.fs.set ⟨false, [str "orders"]⟩ os.Node.dir)
        ⟨false, [str "Orders.Api", str "orders"]⟩
      = .ok ((emptyWorld.fs.set ⟨false, [str "orders"]⟩ os.Node.dir).set
          ⟨false, [str "Orders.Api", str "orders"]⟩ os.Node.dir) := by
    rfl
  have hc : os.Create ((emptyWorld.fs.set ⟨false, [str "orders"]⟩ os.Node.dir).set
        ⟨false, [str "Orders.Api", str "orders"]⟩ os.Node.dir) scenarioDest
      = .ok (((emptyWorld.fs.set ⟨false, [str "orders"]⟩ os.Node.dir).set
          ⟨false, [str "Orders.Api", str "orders"]⟩ os.Node.dir).set scenarioDest
            (os.Node.file [])) := by
    rfl
  have hrun : GenerateProject E ordersConfig emptyWorld
      = (.ok (), ⟨((((emptyWorld.fs.set ⟨false, [str "orders"]⟩ os.Node.dir).set
            ⟨false, [str "Orders.Api", str "orders"]⟩ os.Node.dir).set scenarioDest
              (os.Node.file [])).set scenarioDest
              (os.Node.file (E.engine.Execute (str "var port = {{.Port}};")
                (templateData E.tables E.rand 0 ordersConfig.GetCloudDefaults)).1)), 5⟩) := by
    have hw : emptyWorld.draws = 0 := rfl
    simp only [GenerateProject, hv, hout, hm1, hd, htree, processTemplateDir, scenarioTree,
      processEntries, processEntry, processTemplateFile, hparse, hn1, hn2, hj1, hj2, hm2, hc, hw,
      hexec]
    rfl
  refine ⟨by decide, by decide, ?_, ?_, ?_⟩
  · rw [hrun]
  · rw [hrun]
    simp [os.FS.set]
  · rw [hrun]
    simp only [os.FS.set]
    rw [if_neg (by decide), if_neg (by decide), if_neg (by decide), if_neg (by decide)]
    rfl

theorem scenario_lands_in_Orders_dot_Api_witness :
    processFileName (str "{{.ProjectName}}.Api") ordersConfig = str "Orders.Api"
      ∧ scenarioDest.toString = str "orders/Orders.Api/Program.cs"
      ∧ (GenerateProject scenarioEnv ordersConfig emptyWorld).1 = .ok ()
      ∧ (GenerateProject scenarioEnv ordersConfig emptyWorld).2.fs scenarioDest
          = some (os.Node.file (scenarioEnv.engine.Execute (str "var port = {{.Port}};")
              (templateData scenarioEnv.tables scenarioEnv.rand 0
                ordersConfig.GetCloudDefaults)).1)
      ∧ (GenerateProject scenarioEnv ordersConfig emptyWorld).2.fs
          (filepath.Clean (str "orders/OrdersApi/Program.cs")) = none :=
  scenario_lands_in_Orders_dot_Api scenarioEnv rfl (by decide) (by decide)

/-- C7, as stated, fails: a name holding the token `{{.Name}}` is returned
unchanged, with the token still in it, for a valid configuration. -/
theorem processFileName_leaves_other_tokens :
    ordersConfig.Validate = .ok ()
      ∧ processFileName (str "{{.Name}}.csproj") ordersConfig = str "{{.Name}}.csproj"
      ∧ strings.Contains (processFileName (str "{{.Name}}.csproj") ordersConfig) (str "{{.Name}}")
          = true
      ∧ strings.Contains (processFileName (str "port-{{.Port}}") ordersConfig) (str "{{.Port}}")
          = true := by
  decide

theorem mem_intercalate (new : Bytes) (b : Nat) (segs : List Bytes)
    (h : b ∈ new.intercalate segs) : b ∈ new ∨ ∃ x ∈ segs, b ∈ x := by
  induction segs with
  | nil => simp [List.intercalate, List.intersperse] at h
  | cons seg segs ih =>
    cases segs with
    | nil =>
      simp only [List.intercalate, List.intersperse, List.flatten, List.append_nil] at h
      exact Or.inr ⟨seg, by simp, h⟩
    | cons s2 segs =>
      have e : new.intercalate (seg :: s2 :: segs) = seg ++ (new ++ new.intercalate (s2 :: segs)) := by
        simp [List.intercalate, List.intersperse]
      rw [e, List.mem_append, List.mem_append] at h
      rcases h with h | h | h
      · exact Or.inr ⟨seg, by simp, h⟩
      · exact Or.inl h
      · rcases ih h with h1 | ⟨x, hx, hb⟩
        · exact Or.inl h1
        · exact Or.inr ⟨x, List.mem_cons_of_mem _ hx, hb⟩

/-- C7, amended: `processFileName` resolves the one token `{{.ProjectName}}`
and nothing else.  A name in which that token does not occur is returned
unchanged, so a token of another key in it stays.  In general the pieces of a
name between the occurrences of the token are kept as they are around the
field `ProjectName`, so a token of another key standing in a piece is still
in the rendered name.  When neither the pieces nor `ProjectName` hold an
opening brace, the rendered name has no opening brace left, hence no
double-brace token for any key. -/
theorem processFileName_resolves_only_projectName (c : ProjectConfig) (n key seg : Bytes)
    (segs : List Bytes) :
    (strings.Contains n projectNameToken = false → processFileName n c = n)
      ∧ (strings.Contains n projectNameToken = false →
          strings.Contains n (tokenFor key) = true →
          strings.Contains (processFileName n c) (tokenFor key) = true)
      ∧ ((∀ x ∈ seg :: segs, strings.Contains x projectNameToken = false) →
          processFileName (projectNameToken.intercalate (seg :: segs)) c
              = c.ProjectName.intercalate (seg :: segs)
            ∧ ∀ x ∈ seg :: segs, strings.Contains x (tokenFor key) = true →
                strings.Contains (processFileName (projectNameToken.intercalate (seg :: segs)) c)
                  (tokenFor key) = true)
      ∧ ((∀ x ∈ seg :: segs, 0x7B ∉ x) → 0x7B ∉ c.ProjectName →
          processFileName (projectNameToken.intercalate (seg :: segs)) c
              = c.ProjectName.intercalate (seg :: segs)
            ∧ 0x7B ∉ processFileName (projectNameToken.intercalate (seg :: segs)) c
            ∧ ∀ key2 : Bytes,
                strings.Contains (processFileName (projectNameToken.intercalate (seg :: segs)) c)
                  (tokenFor key2) = false) := by
  have hsame : strings.Contains n projectNameToken = false → processFileName n c = n := by
    intro h
    have := processFileName_pieces c n [] (by simpa using h)
    simpa [List.intercalate, List.intersperse] using this
  refine ⟨hsame, ?_, ?_, ?_⟩
  · intro h hk
    rw [hsame h]
    exact hk
  · intro hs
    have e := processFileName_pieces c seg segs hs
    refine ⟨e, ?_⟩
    intro x hx hk
    rw [e]
    exact contains_of_piece _ _ x _ hx hk
  · intro hsegs hname
    have e := processFileName_intercalate c seg segs hsegs
    have hno : 0x7B ∉ processFileName (projectNameToken.intercalate (seg :: segs)) c := by
      rw [e]
      intro hb
      rcases mem_intercalate _ _ _ hb with h1 | ⟨x, hx, h1⟩
      · exact hname h1
      · exact hsegs x hx h1
    refine ⟨e, hno, ?_⟩
    intro key2
    cases hc : strings.Contains (processFileName (projectNameToken.intercalate (seg :: segs)) c)
        (tokenFor key2) with
    | false => rfl
    | true =>
      exfalso
      obtain ⟨pre, post, hpp⟩ := (contains_iff _ _).1 hc
      apply hno
      rw [hpp]
      simp [tokenFor]

theorem processFileName_resolves_only_projectName_witness :
    processFileName (str "{{.Name}}.csproj") ordersConfig = str "{{.Name}}.csproj"
      ∧ strings.Contains (processFileName (str "{{.Name}}.csproj") ordersConfig)
          (tokenFor (str "Name")) = true
      ∧ strings.Contains
          (processFileName (projectNameToken.intercalate [str "v-{{.Port}}-", str ".Api"])
            ordersConfig) (tokenFor (str "Port")) = true
      ∧ 0x7B ∉ processFileName (projectNameToken.intercalate [[], str ".Api"]) ordersConfig :=
  have h1 := processFileName_resolves_only_projectName ordersConfig (str "{{.Name}}.csproj")
    (str "Name") [] [str ".Api"]
  have h2 := processFileName_resolves_only_projectName ordersConfig (str "{{.Name}}.csproj")
    (str "Port") (str "v-{{.Port}}-") [str ".Api"]
  ⟨h1.1 (by decide), h1.2.1 (by decide) (by decide),
    (h2.2.2.1 (by decide)).2 (str "v-{{.Port}}-") (by decide) (by decide),
    (h1.2.2.2 (by decide) (by decide)).2.1⟩

/-! ## Feature toggles (C9) -/

theorem isFullStackTemplate_of_infix (pre post : Bytes) :
    isFullStackTemplate (pre ++ str "fullstack" ++ post) = true :=
  (contains_iff _ _).2 ⟨pre, post, rfl⟩

/-- C9: every toggle of the context is the OR of the explicit flag and the
rule of the template (`isAspireTemplate` for the cache, `isFullStackTemplate`
for the other five); so for one template, raising explicit flags never lowers
a toggle, and for a template whose identifier contains `fullstack` the
storage, mail, queue, jobs and worker toggles are true whatever the flags. -/
theorem toggle_is_flag_or_template_rule (T : unicode.CaseTables) (rand : Nat → Bytes)
    (k k2 : Nat) (c c2 : ProjectConfig) :
    ((templateData T rand k c).IncludeCache = (c.IncludeCache || isAspireTemplate c.Template)
      ∧ (templateData T rand k c).IncludeStorage
          = (c.IncludeStorage || isFullStackTemplate c.Template)
      ∧ (templateData T rand k c).IncludeMail = (c.IncludeMail || isFullStackTemplate c.Template)
      ∧ (templateData T rand k c).IncludeMessageQueue
          = (c.IncludeMessageQueue || isFullStackTemplate c.Template)
      ∧ (templateData T rand k c).IncludeJobs = (c.IncludeJobs || isFullStackTemplate c.Template)
      ∧ (templateData T rand k c).IncludeWorker
          = (c.IncludeWorker || isFullStackTemplate c.Template))
    ∧ (c2.Template = c.Template →
        (c.IncludeCache = true → c2.IncludeCache = true) →
        (c.IncludeStorage = true → c2.IncludeStorage = true) →
        (c.IncludeMail = true → c2.IncludeMail = true) →
        (c.IncludeMessageQueue = true → c2.IncludeMessageQueue = true) →
        (c.IncludeJobs = true → c2.IncludeJobs = true) →
        (c.IncludeWorker = true → c2.IncludeWorker = true) →
        ((templateData T rand k c).IncludeCache = true →
            (templateData T rand k2 c2).IncludeCache = true)
          ∧ ((templateData T rand k c).IncludeStorage = true →
            (templateData T rand k2 c2).IncludeStorage = true)
          ∧ ((templateData T rand k c).IncludeMail = true →
            (templateData T rand k2 c2).IncludeMail = true)
          ∧ ((templateData T rand k c).IncludeMessageQueue = true →
            (templateData T rand k2 c2).IncludeMessageQueue = true)
          ∧ ((templateData T rand k c).IncludeJobs = true →
            (templateData T rand k2 c2).IncludeJobs = true)
          ∧ ((templateData T rand k c).IncludeWorker = true →
            (templateData T rand k2 c2).IncludeWorker = true))
    ∧ ((∃ pre post, c.Template = pre ++ str "fullstack" ++ post) →
        (templateData T rand k c).IncludeStorage = true
          ∧ (templateData T rand k c).IncludeMail = true
          ∧ (templateData T rand k c).IncludeMessageQueue = true
          ∧ (templateData T rand k c).IncludeJobs = true
          ∧ (templateData T rand k c).IncludeWorker = true) := by
  refine ⟨⟨rfl, rfl, rfl, rfl, rfl, rfl⟩, ?_, ?_⟩
  · intro ht h1 h2 h3 h4 h5 h6
    simp only [templateData, ht, Bool.or_eq_true]
    exact ⟨Or.imp_left h1, Or.imp_left h2, Or.imp_left h3, Or.imp_left h4, Or.imp_left h5,
      Or.imp_left h6⟩
  · rintro ⟨pre, post, ht⟩
    have hf : isFullStackTemplate c.Template = true := by
      rw [ht]; exact isFullStackTemplate_of_infix pre post
    simp [templateData, hf]

theorem toggle_is_flag_or_template_rule_witness :
    (((templateData unicode.latin1 scenarioEnv.rand 0 fullstackConfig).IncludeCache = true →
        (templateData unicode.latin1 scenarioEnv.rand 5 fullstackCacheConfig).IncludeCache = true)
      ∧ ((templateData unicode.latin1 scenarioEnv.rand 0 fullstackConfig).IncludeWorker = true →
        (templateData unicode.latin1 scenarioEnv.rand 5 fullstackCacheConfig).IncludeWorker = true))
    ∧ (fullstackConfig.IncludeStorage = false
      ∧ (templateData unicode.latin1 scenarioEnv.rand 0 fullstackConfig).IncludeStorage = true
      ∧ (templateData unicode.latin1 scenarioEnv.rand 0 fullstackConfig).IncludeWorker = true) :=
  have h := toggle_is_flag_or_template_rule unicode.latin1 scenarioEnv.rand 0 5 fullstackConfig
    fullstackCacheConfig
  have hm := h.2.1 rfl (fun _ => rfl) id id id id id
  have hf := h.2.2 ⟨str "aspire-", str "-aws", by decide⟩
  ⟨⟨hm.1, hm.2.2.2.2.2⟩, by decide, hf.1, hf.2.2.2.2⟩

/-! ## Title case (C1) -/

/-- C1 holds on its three witnesses and fails on a word whose first letter is
not ASCII: `toTitleCase` upper-cases the first byte of the word, not its first
letter.  For `élan` the specification gives `Élan`; the code returns the text
of U+00C3, U+FFFD and `lan`. -/
theorem toTitleCase_first_byte_not_first_letter :
    toTitleCase unicode.latin1 (str "my-api") = str "MyApi"
      ∧ toTitleCase unicode.latin1 (str "foo_bar baz") = str "FooBarBaz"
      ∧ toTitleCase unicode.latin1 (str "WebApp") = str "Webapp"
      ∧ titleCaseSpec unicode.latin1 (str "élan") = str "Élan"
      ∧ toTitleCase unicode.latin1 (str "élan") = [0xC3, 0x83, 0xEF, 0xBF, 0xBD, 0x6C, 0x61, 0x6E]
      ∧ toTitleCase unicode.latin1 (str "élan") = str "Ã�lan"
      ∧ toTitleCase unicode.latin1 (str "élan") ≠ titleCaseSpec unicode.latin1 (str "élan") := by
  decide

/-! ## Title case on ASCII names -/

theorem rangeAux_ascii (n : Nat) (s : Bytes) (h : ∀ b ∈ s, b < 0x80) (hn : s.length ≤ n) :
    utf8.rangeAux n s = s.map (fun b => (b, [b])) := by
  induction n generalizing s with
  | zero =>
    have : s = [] := List.length_eq_zero.1 (Nat.le_zero.1 hn)
    rw [this]
    rfl
  | succ n ih =>
    cases s with
    | nil => rfl
    | cons b t =>
      have hb : b < 0x80 := h b (by simp)
      have ht : ∀ x ∈ t, x < 0x80 := fun x hx => h x (List.mem_cons_of_mem _ hx)
      have hd : utf8.DecodeRuneInString (b :: t) = (b, 1) := by
        simp [utf8.DecodeRuneInString, hb]
      have hl : t.length ≤ n := by simpa using hn
      simp only [utf8.rangeAux, hd, List.map_cons]
      rw [show List.drop 1 (b :: t) = t from rfl, ih t ht hl]
      rfl

theorem range_ascii (s : Bytes) (h : ∀ b ∈ s, b < 0x80) :
    utf8.range s = s.map (fun b => (b, [b])) :=
  rangeAux_ascii s.length s h (Nat.le_refl _)

theorem map_ascii (g : Nat → Nat) (s : Bytes) (h : ∀ b ∈ s, b < 0x80) :
    strings.Map g s = s.flatMap (fun b => utf8.AppendRune (g b)) := by
  unfold strings.Map
  rw [range_ascii s h]
  rw [List.flatMap, List.flatMap, List.map_map]
  rfl

theorem splitRunes_ne_nil (f : Nat → Bool) (s : List Nat) : splitRunes f s ≠ [] := by
  cases s with
  | nil => simp [splitRunes]
  | cons r rs =>
    unfold splitRunes
    split_ifs
    · simp
    · split <;> simp

theorem mem_of_mem_splitRunes (f : Nat → Bool) (s : List Nat) :
    ∀ w ∈ splitRunes f s, ∀ b ∈ w, b ∈ s := by
  induction s with
  | nil =>
    intro w hw b hb
    simp only [splitRunes, List.mem_singleton] at hw
    rw [hw] at hb
    exact hb
  | cons r rs ih =>
    intro w hw b hb
    unfold splitRunes at hw
    split_ifs at hw with hf
    · rcases List.mem_cons.1 hw with e | hw2
      · rw [e] at hb; cases hb
      · exact List.mem_cons_of_mem _ (ih w hw2 b hb)
    · cases hs : splitRunes f rs with
      | nil => exact absurd hs (splitRunes_ne_nil f rs)
      | cons w0 ws =>
        rw [hs] at hw ih
        simp only [List.mem_cons] at hw
        rcases hw with e | hw2
        · rw [e] at hb
          rcases List.mem_cons.1 hb with e2 | hb2
          · rw [e2]; simp
          · exact List.mem_cons_of_mem _ (ih w0 (by simp) b hb2)
        · exact List.mem_cons_of_mem _ (ih w (by simp [hw2]) b hb)

theorem fieldsLoop_ascii (f : Nat → Bool) (s : Bytes) :
    ∀ cur : Option Bytes, cur ≠ some [] →
      strings.fieldsLoop f (s.map (fun b => (b, [b]))) cur
        = (match splitRunes f s with
            | [] => []
            | first :: others => (cur.getD [] ++ first) :: others).filter (fun w => !w.isEmpty) := by
  induction s with
  | nil =>
    intro cur hcur
    cases cur with
    | none => simp [strings.fieldsLoop, splitRunes]
    | some w =>
      have hw : w ≠ [] := fun e => hcur (by rw [e])
      simp [strings.fieldsLoop, splitRunes, hw]
  | cons r rs ih =>
    intro cur hcur
    obtain ⟨w0, ws, hs⟩ : ∃ w0 ws, splitRunes f rs = w0 :: ws := by
      cases h : splitRunes f rs with
      | nil => exact absurd h (splitRunes_ne_nil f rs)
      | cons a b => exact ⟨a, b, rfl⟩
    have ihn := ih none (by simp)
    rw [hs] at ihn
    by_cases hf : f r = true
    · cases cur with
      | none =>
        simp only [List.map_cons, strings.fieldsLoop, hf, if_true, splitRunes, ihn]
        simp [hs]
      | some w =>
        have hw : w ≠ [] := fun e => hcur (by rw [e])
        simp only [List.map_cons, strings.fieldsLoop, hf, if_true, splitRunes, ihn]
        simp [hw, hs]
    · have ihs := ih (some (cur.getD [] ++ [r])) (by simp)
      rw [hs] at ihs
      simp only [List.map_cons, strings.fieldsLoop, hf, splitRunes, hs, ihs]
      simp

theorem intercalate_nil (xs : List Bytes) : ([] : Bytes).intercalate xs = xs.flatten := by
  induction xs with
  | nil => rfl
  | cons x xs ih =>
    cases xs with
    | nil => simp [List.intercalate, List.intersperse]
    | cons y ys =>
      have e : ([] : Bytes).intercalate (x :: y :: ys) = x ++ ([] ++ ([] : Bytes).intercalate (y :: ys)) := by
        simp [List.intercalate, List.intersperse]
      rw [e, ih]
      simp

/-- On a name of ASCII bytes `toTitleCase` computes what the specification
describes: the words between the separators, the first letter of each in upper
case and its other letters in lower case, concatenated. -/
theorem toTitleCase_ascii (T : unicode.CaseTables) (s : Bytes) (h : ∀ b ∈ s, b < 0x80) :
    toTitleCase T s = titleCaseSpec T s := by
  have hr := range_ascii s h
  have hfields : strings.FieldsFunc s isSeparator
      = (splitRunes isSeparator s).filter (fun w => !w.isEmpty) := by
    unfold strings.FieldsFunc
    rw [hr, fieldsLoop_ascii isSeparator s none (by simp)]
    cases hs : splitRunes isSeparator s with
    | nil => rfl
    | cons a b => simp
  have hletters : (utf8.range s).map Prod.fst = s := by
    rw [hr, List.map_map]
    exact List.map_id s
  unfold toTitleCase titleCaseSpec
  simp only [hfields, hletters, strings.Join, intercalate_nil]
  congr 1
  apply List.map_congr_left
  intro w hw
  have hw2 := (List.mem_filter.1 hw).1
  have hall : ∀ b ∈ w, b < 0x80 := fun b hb => h b (mem_of_mem_splitRunes _ _ w hw2 b hb)
  cases w with
  | nil => rfl
  | cons b rest =>
    have hb : b < 0x80 := hall b (by simp)
    have hrest : ∀ x ∈ rest, x < 0x80 := fun x hx => hall x (List.mem_cons_of_mem _ hx)
    have ha : utf8.AppendRune b = [b] := by simp [utf8.AppendRune, hb]
    simp only [ha, strings.ToUpper, strings.ToLower]
    rw [map_ascii _ [b] (by simpa using hb), map_ascii _ rest hrest]
    simp

/-! ## The walk over the template tree (C4) -/

theorem splitSlash_of_no_slash (seg : Bytes) (h : 0x2F ∉ seg) : filepath.splitSlash seg = [seg] := by
  induction seg with
  | nil => rfl
  | cons b s ih =>
    have hb : b ≠ 0x2F := fun e => h (by simp [e])
    have hs : 0x2F ∉ s := fun e => h (List.mem_cons_of_mem _ e)
    simp [filepath.splitSlash, hb, ih hs]

theorem plainSegment_iff (s : Bytes) :
    plainSegment s = true ↔ s ≠ [] ∧ 0x2F ∉ s ∧ s ≠ str "." ∧ s ≠ str ".." := by
  simp [plainSegment, and_assoc]

theorem join_plain (base : Path) (seg : Bytes) (h : plainSegment seg = true) :
    base.join seg = base.child seg := by
  obtain ⟨h1, h2, h3, h4⟩ := (plainSegment_iff seg).1 h
  simp [filepath.Path.join, filepath.Path.child, splitSlash_of_no_slash seg h2,
    filepath.cleanStep, h1, h3, h4]

theorem stat_child (fs : os.FS) (base : Path) (seg : Bytes) (h : plainSegment seg = true) :
    os.Stat fs (base.child seg) = fs (base.child seg) := by
  obtain ⟨h1, h2, h3, h4⟩ := (plainSegment_iff seg).1 h
  simp [os.Stat, filepath.Path.child, h4]

theorem mkdirAllRev_of_dir (fs : os.FS) (base : Path) (h : os.Stat fs base = some os.Node.dir) :
    os.mkdirAllRev fs base.rooted base.rev = .ok fs := by
  cases hb : base.rev with
  | nil => rfl
  | cons c parent =>
    have e : (⟨base.rooted, c :: parent⟩ : Path) = base := by
      cases base; simp_all
    simp [os.mkdirAllRev, e, h]

theorem mkdirAll_child (fs fs1 : os.FS) (base : Path) (seg : Bytes)
    (hseg : plainSegment seg = true) (hbase : os.Stat fs base = some os.Node.dir)
    (hok : os.MkdirAll fs (base.child seg) = .ok fs1) :
    (fs (base.child seg) = some os.Node.dir ∧ fs1 = fs)
      ∨ (fs (base.child seg) = none ∧ fs1 = fs.set (base.child seg) os.Node.dir) := by
  have hst := stat_child fs base seg hseg
  have hm := mkdirAllRev_of_dir fs base hbase
  have hbase2 : os.Stat fs ⟨base.rooted, base.rev⟩ = some os.Node.dir := hbase
  unfold os.MkdirAll at hok
  simp only [filepath.Path.child] at hok hst
  unfold os.mkdirAllRev at hok
  rw [hst] at hok
  cases hfs : fs ⟨base.rooted, seg :: base.rev⟩ with
  | none =>
    rw [hfs] at hok hst
    simp only [hm, os.Mkdir, hst, Option.isSome_none, hbase2] at hok
    right
    refine ⟨hfs, ?_⟩
    simp at hok
    exact hok.symm
  | some n =>
    rw [hfs] at hok
    cases n with
    | dir =>
      left
      simp at hok
      exact ⟨hfs, hok.symm⟩
    | file x => simp at hok

theorem create_child (fs fs1 : os.FS) (base : Path) (seg : Bytes)
    (hseg : plainSegment seg = true) (hok : os.Create fs (base.child seg) = .ok fs1) :
    fs (base.child seg) ≠ some os.Node.dir
      ∧ fs1 = fs.set (base.child seg) (os.Node.file []) := by
  have hst := stat_child fs base seg hseg
  unfold os.Create at hok
  simp only [filepath.Path.child] at hok hst
  rw [hst] at hok
  cases hfs : fs ⟨base.rooted, seg :: base.rev⟩ with
  | none =>
    rw [hfs] at hok
    simp only at hok
    split_ifs at hok
    simp at hok
    exact ⟨by simp [filepath.Path.child, hfs], hok.symm⟩
  | some n =>
    rw [hfs] at hok
    cases n with
    | dir => simp at hok
    | file x =>
      simp only at hok
      split_ifs at hok
      simp at hok
      exact ⟨by simp [filepath.Path.child, hfs], hok.symm⟩

theorem mirrors_refl (fs : os.FS) : Mirrors [] fs fs := by
  refine ⟨fun _ _ => rfl, fun p => ?_, fun p => ?_⟩ <;> simp

theorem mirrors_append (I1 I2 : List (Path × Kind)) (fs fs1 fs2 : os.FS)
    (h1 : Mirrors I1 fs fs1) (h2 : Mirrors I2 fs1 fs2) : Mirrors (I1 ++ I2) fs fs2 := by
  obtain ⟨a1, b1, c1⟩ := h1
  obtain ⟨a2, b2, c2⟩ := h2
  refine ⟨fun p hp => ?_, fun p => ?_, fun p => ?_⟩
  · rw [a2 p (fun k hk => hp k (List.mem_append_right _ hk)),
      a1 p (fun k hk => hp k (List.mem_append_left _ hk))]
  · rw [b2 p, b1 p, List.mem_append, or_assoc]
  · rw [c2 p, c1 p, List.mem_append, or_assoc]

theorem mirrors_dir_present (fs : os.FS) (p : Path) (h : fs p = some os.Node.dir) :
    Mirrors [(p, Kind.dir)] fs fs := by
  refine ⟨fun _ _ => rfl, fun q => ?_, fun q => ?_⟩
  · constructor
    · exact Or.inl
    · rintro (hq | hq)
      · exact hq
      · simp only [List.mem_singleton, Prod.mk.injEq, and_true] at hq
        rw [hq]; exact h
  · simp

theorem mirrors_dir_new (fs : os.FS) (p : Path) (h : fs p = none) :
    Mirrors [(p, Kind.dir)] fs (fs.set p os.Node.dir) := by
  refine ⟨fun q hq => ?_, fun q => ?_, fun q => ?_⟩
  · have : q ≠ p := fun e => hq Kind.dir (by simp [e])
    simp [os.FS.set, this]
  · by_cases e : q = p
    · simp [os.FS.set, e]
    · simp [os.FS.set, e]
  · by_cases e : q = p
    · simp [os.FS.set, e, h]
    · simp [os.FS.set, e]

theorem mirrors_file (fs : os.FS) (p : Path) (out : Bytes) (h : fs p ≠ some os.Node.dir) :
    Mirrors [(p, Kind.file)] fs ((fs.set p (os.Node.file [])).set p (os.Node.file out)) := by
  refine ⟨fun q hq => ?_, fun q => ?_, fun q => ?_⟩
  · have : q ≠ p := fun e => hq Kind.file (by simp [e])
    simp [os.FS.set, this]
  · by_cases e : q = p
    · simp [os.FS.set, e, h]
    · simp [os.FS.set, e]
  · by_cases e : q = p
    · simp [os.FS.set, e]
    · simp [os.FS.set, e]

theorem stat_of_mirrors (I : List (Path × Kind)) (fs fs2 : os.FS) (out : Path)
    (h : Mirrors I fs fs2) (hs : os.Stat fs out = some os.Node.dir) :
    os.Stat fs2 out = some os.Node.dir := by
  unfold os.Stat at hs ⊢
  split_ifs at hs ⊢ with ha
  · rfl
  · exact (h.2.1 out).2 (Or.inl hs)

theorem processTemplateFile_ok (E : Env) (sp content : Bytes) (dest : Path) (c : ProjectConfig)
    (w : World) (h : (processTemplateFile E sp content dest c w).1 = .ok ()) :
    ∃ fs1, os.Create w.fs dest = .ok fs1
      ∧ (processTemplateFile E sp content dest c w).2
          = ⟨fs1.set dest (os.Node.file
              (E.engine.Execute content (templateData E.tables E.rand w.draws c)).1),
            w.draws + 5⟩ := by
  unfold processTemplateFile at h ⊢
  cases hp : E.engine.Parse content with
  | false => simp [hp] at h
  | true =>
    cases hc : os.Create w.fs dest with
    | error e => simp [hp, hc] at h
    | ok fs1 =>
      refine ⟨fs1, rfl, ?_⟩
      simp only [hp, hc] at h ⊢
      split_ifs at h ⊢
      simp_all

mutual
theorem processEntry_mirrors (E : Env) (c : ProjectConfig) :
    ∀ (a : Asset) (td : Bytes) (out : Path) (w : World),
      a.plainNames c = true → os.Stat w.fs out = some os.Node.dir →
      (processEntry E c td out a w).1 = .ok () →
      Mirrors (a.rendered c out) w.fs (processEntry E c td out a w).2.fs
  | .file name content, td, out, w, hp, hs, hr => by
    simp only [Asset.plainNames] at hp
    simp only [processEntry, join_plain out _ hp] at hr ⊢
    obtain ⟨fs1, hc, hw⟩ := processTemplateFile_ok E _ content _ c w hr
    obtain ⟨hnd, hfs1⟩ := create_child w.fs fs1 out _ hp hc
    rw [hw, hfs1]
    exact mirrors_file w.fs _ _ hnd
  | .dir name children, td, out, w, hp, hs, hr => by
    simp only [Asset.plainNames, Bool.and_eq_true] at hp
    simp only [processEntry, join_plain out _ hp.1] at hr ⊢
    cases hm : os.MkdirAll w.fs (out.child (processFileName name c)) with
    | error e => simp [hm] at hr
    | ok fs1 =>
      simp only [hm] at hr ⊢
      have hstep : Mirrors [(out.child (processFileName name c), Kind.dir)] w.fs fs1 := by
        rcases mkdirAll_child w.fs fs1 out _ hp.1 hs hm with ⟨h1, h2⟩ | ⟨h1, h2⟩
        · rw [h2]; exact mirrors_dir_present w.fs _ h1
        · rw [h2]; exact mirrors_dir_new w.fs _ h1
      have hd : os.Stat fs1 (out.child (processFileName name c)) = some os.Node.dir := by
        rw [stat_child fs1 out _ hp.1]
        exact (hstep.2.1 _).2 (Or.inr (by simp))
      have ih := processEntries_mirrors E c children (sourcePathOf td name)
        (out.child (processFileName name c)) ⟨fs1, w.draws⟩ hp.2 hd hr
      exact mirrors_append _ _ _ _ _ hstep ih
theorem processEntries_mirrors (E : Env) (c : ProjectConfig) :
    ∀ (l : AssetList) (td : Bytes) (out : Path) (w : World),
      l.plainNames c = true → os.Stat w.fs out = some os.Node.dir →
      (processEntries E c td out l w).1 = .ok () →
      Mirrors (l.rendered c out) w.fs (processEntries E c td out l w).2.fs
  | .nil, td, out, w, hp, hs, hr => by
    simp only [processEntries, AssetList.rendered]
    exact mirrors_refl w.fs
  | .cons a rest, td, out, w, hp, hs, hr => by
    simp only [AssetList.plainNames, Bool.and_eq_true] at hp
    simp only [processEntries] at hr ⊢
    cases hres : processEntry E c td out a w with
    | mk r w1 =>
      cases r with
      | error e => simp [hres] at hr
      | ok u =>
        simp only [hres] at hr ⊢
        have h1 := processEntry_mirrors E c a td out w hp.1 hs (by rw [hres])
        rw [hres] at h1
        have hs1 := stat_of_mirrors _ _ _ out h1 hs
        have h2 := processEntries_mirrors E c rest td out w1 hp.2 hs1 hr
        exact mirrors_append _ _ _ _ _ h1 h2
end

mutual
theorem processEntry_draws (E : Env) (c : ProjectConfig) :
    ∀ (a : Asset) (td : Bytes) (out : Path) (w : World),
      (processEntry E c td out a w).1 = .ok () →
      (processEntry E c td out a w).2.draws = w.draws + 5 * a.fileCount
  | .file name content, td, out, w, hr => by
    simp only [processEntry] at hr ⊢
    obtain ⟨fs1, -, hw⟩ := processTemplateFile_ok E _ content _ c w hr
    rw [hw]
    simp [Asset.fileCount]
  | .dir name children, td, out, w, hr => by
    simp only [processEntry] at hr ⊢
    cases hm : os.MkdirAll w.fs (out.join (processFileName name c)) with
    | error e => simp [hm] at hr
    | ok fs1 =>
      simp only [hm] at hr ⊢
      have ih := processEntries_draws E c children (sourcePathOf td name)
        (out.join (processFileName name c)) ⟨fs1, w.draws⟩ hr
      simpa [Asset.fileCount] using ih
theorem processEntries_draws (E : Env) (c : ProjectConfig) :
    ∀ (l : AssetList) (td : Bytes) (out : Path) (w : World),
      (processEntries E c td out l w).1 = .ok () →
      (processEntries E c td out l w).2.draws = w.draws + 5 * l.fileCount
  | .nil, td, out, w, hr => by
    simp only [processEntries, AssetList.fileCount]
    rfl
  | .cons a rest, td, out, w, hr => by
    simp only [processEntries] at hr ⊢
    cases hres : processEntry E c td out a w with
    | mk r w1 =>
      cases r with
      | error e => simp [hres] at hr
      | ok u =>
        simp only [hres] at hr ⊢
        have h1 := processEntry_draws E c a td out w (by rw [hres])
        rw [hres] at h1
        have h2 := processEntries_draws E c rest td out w1 hr
        rw [h2, h1]
        simp only [AssetList.fileCount]
        ring
end

mutual
theorem asset_rendered_shape (c : ProjectConfig) :
    ∀ (a : Asset) (base : Path) (x : Path × Kind), x ∈ a.rendered c base →
      x.1.rooted = base.rooted ∧ ∃ rel, x.1.rev = rel ++ processFileName a.name c :: base.rev
  | .file name content, base, x, hx => by
    simp only [Asset.rendered, List.mem_singleton] at hx
    rw [hx]
    exact ⟨rfl, [], rfl⟩
  | .dir name children, base, x, hx => by
    simp only [Asset.rendered, List.mem_cons] at hx
    rcases hx with hx | hx
    · rw [hx]
      exact ⟨rfl, [], rfl⟩
    · obtain ⟨h1, rel, n, -, h2⟩ := list_rendered_shape c children _ x hx
      refine ⟨h1, rel ++ [n], ?_⟩
      rw [h2]
      simp [filepath.Path.child, Asset.name]
theorem list_rendered_shape (c : ProjectConfig) :
    ∀ (l : AssetList) (base : Path) (x : Path × Kind), x ∈ l.rendered c base →
      x.1.rooted = base.rooted
        ∧ ∃ rel n, n ∈ l.renderedNames c ∧ x.1.rev = rel ++ n :: base.rev
  | .nil, base, x, hx => by
    simp [AssetList.rendered] at hx
  | .cons a rest, base, x, hx => by
    simp only [AssetList.rendered, List.mem_append] at hx
    rcases hx with hx | hx
    · obtain ⟨h1, rel, h2⟩ := asset_rendered_shape c a base x hx
      exact ⟨h1, rel, _, by simp [AssetList.renderedNames], h2⟩
    · obtain ⟨h1, rel, n, hn, h2⟩ := list_rendered_shape c rest base x hx
      exact ⟨h1, rel, n, by simp [AssetList.renderedNames, hn], h2⟩
end

theorem rendered_below (c : ProjectConfig) (l : AssetList) (base : Path) (x : Path × Kind)
    (hx : x ∈ l.rendered c base) : below base x.1 := by
  obtain ⟨h1, rel, n, -, h2⟩ := list_rendered_shape c l base x hx
  exact ⟨h1, rel ++ [n], by simp, by simp [h2]⟩

theorem top_segment_unique (rel rel2 : List Bytes) (n n2 : Bytes) (base : List Bytes)
    (h : rel ++ n :: base = rel2 ++ n2 :: base) : n = n2 := by
  have h2 : (rel ++ [n]) ++ base = (rel2 ++ [n2]) ++ base := by simpa using h
  have h3 := List.append_cancel_right h2
  have h4 := congrArg List.getLast? h3
  simpa using h4

mutual
theorem asset_rendered_nodup (c : ProjectConfig) :
    ∀ (a : Asset) (base : Path), a.distinctNames c = true →
      ((a.rendered c base).map Prod.fst).Nodup
  | .file name content, base, h => by
    simp [Asset.rendered]
  | .dir name children, base, h => by
    simp only [Asset.distinctNames] at h
    simp only [Asset.rendered, List.map_cons, List.nodup_cons]
    refine ⟨?_, list_rendered_nodup c children _ h⟩
    intro hmem
    obtain ⟨x, hx, hxe⟩ := List.mem_map.1 hmem
    obtain ⟨-, rel, hne, hrev⟩ := rendered_below c children _ x hx
    rw [hxe] at hrev
    have := congrArg List.length hrev
    simp only [List.length_append] at this
    have : rel.length = 0 := by omega
    exact hne (List.length_eq_zero.1 this)
theorem list_rendered_nodup (c : ProjectConfig) :
    ∀ (l : AssetList) (base : Path), l.distinctNames c = true →
      ((l.rendered c base).map Prod.fst).Nodup
  | .nil, base, h => by
    simp [AssetList.rendered]
  | .cons a rest, base, h => by
    simp only [AssetList.distinctNames, Bool.and_eq_true, decide_eq_true_eq] at h
    simp only [AssetList.rendered, List.map_append]
    rw [List.nodup_append]
    refine ⟨asset_rendered_nodup c a base h.1.2, list_rendered_nodup c rest base h.2, ?_⟩
    intro p hp1 hp2
    obtain ⟨x, hx, hxe⟩ := List.mem_map.1 hp1
    obtain ⟨y, hy, hye⟩ := List.mem_map.1 hp2
    obtain ⟨-, rel, h1⟩ := asset_rendered_shape c a base x hx
    obtain ⟨-, rel2, n, hn, h2⟩ := list_rendered_shape c rest base y hy
    rw [hxe] at h1
    rw [hye, h1] at h2
    have := top_segment_unique _ _ _ _ _ h2
    exact h.1.1 (this ▸ hn)
end

/-- C4, as stated, fails: the two sibling files `Orders` and
`{{.ProjectName}}` of a template root are rendered, for the project `orders`,
to the one destination `orders/Orders`; the run succeeds and the second file
overwrites the first. -/
theorem sibling_entries_collapse :
    str "Orders" ≠ str "{{.ProjectName}}"
      ∧ collideTree.plainNames ordersConfig = true
      ∧ (processTemplateDir collideEnv (str "templates/aws") (some collideTree) ordersRoot
          ordersConfig ordersWorld).1 = .ok ()
      ∧ collideTree.rendered ordersConfig ordersRoot
          = [(ordersRoot.child (str "Orders"), Kind.file),
             (ordersRoot.child (str "Orders"), Kind.file)]
      ∧ (processTemplateDir collideEnv (str "templates/aws") (some collideTree) ordersRoot
          ordersConfig ordersWorld).2.fs (ordersRoot.child (str "Orders"))
          = some (os.Node.file (str "second"))
      ∧ (processTemplateDir collideEnv (str "templates/aws") (some collideTree) ordersRoot
          ordersConfig ordersWorld).2.fs (ordersRoot.child (str "{{.ProjectName}}")) = none := by
  decide

/-- C4, amended: when every name of the template tree is rendered to a plain
path segment, a successful run of `processTemplateDir` into an empty
destination leaves below the destination root exactly the rendered paths of
the tree, directories as directories and files as files, and changes nothing
elsewhere; the rendered paths are pairwise distinct when no two entries of one
directory are rendered to one name (entries that are, are merged into one
destination entry). -/
theorem walk_mirrors_template_tree (E : Env) (c : ProjectConfig) (T : AssetList) (td : Bytes)
    (out : Path) (w : World)
    (hplain : T.plainNames c = true)
    (hout : os.Stat w.fs out = some os.Node.dir)
    (hempty : ∀ p, below out p → w.fs p = none)
    (hrun : (processTemplateDir E td (some T) out c w).1 = .ok ()) :
    (∀ p k, below out p →
        (kindOf ((processTemplateDir E td (some T) out c w).2.fs p) = some k
          ↔ (p, k) ∈ T.rendered c out))
      ∧ (∀ p, ¬ below out p → (processTemplateDir E td (some T) out c w).2.fs p = w.fs p)
      ∧ (T.distinctNames c = true → ((T.rendered c out).map Prod.fst).Nodup) := by
  have e : processTemplateDir E td (some T) out c w = processEntries E c td out T w := rfl
  rw [e] at hrun ⊢
  obtain ⟨hframe, hdir, hfile⟩ := processEntries_mirrors E c T td out w hplain hout hrun
  refine ⟨?_, ?_, list_rendered_nodup c T out⟩
  · intro p k hb
    have hnone := hempty p hb
    cases k with
    | dir =>
      have := hdir p
      rw [hnone] at this
      constructor
      · intro hk
        cases hfs : (processEntries E c td out T w).2.fs p with
        | none => rw [hfs] at hk; simp [kindOf] at hk
        | some n =>
          cases n with
          | dir => simpa using this.1 hfs
          | file x => rw [hfs] at hk; simp [kindOf] at hk
      · intro hmem
        rw [this.2 (Or.inr hmem)]
        rfl
    | file =>
      have := hfile p
      rw [hnone] at this
      constructor
      · intro hk
        cases hfs : (processEntries E c td out T w).2.fs p with
        | none => rw [hfs] at hk; simp [kindOf] at hk
        | some n =>
          cases n with
          | dir => rw [hfs] at hk; simp [kindOf] at hk
          | file x => simpa using this.1 ⟨x, hfs⟩
      · intro hmem
        obtain ⟨x, hx⟩ := this.2 (Or.inr hmem)
        rw [hx]
        rfl
  · intro p hnb
    apply hframe
    intro k hk
    exact hnb (rendered_below c T out (p, k) hk)

theorem ordersWorld_empty_below (p : Path) (h : below ordersRoot p) : ordersWorld.fs p = none := by
  obtain ⟨-, rel, hne, hrev⟩ := h
  have hp : p ≠ ordersRoot := by
    intro e
    rw [e] at hrev
    have := congrArg List.length hrev
    simp only [List.length_append] at this
    have : rel.length = 0 := by omega
    exact hne (List.length_eq_zero.1 this)
  simp [ordersWorld, os.FS.set, hp, emptyWorld]

theorem walk_mirrors_template_tree_witness :
    (∀ p k, below ordersRoot p →
        (kindOf ((processTemplateDir scenarioEnv (str "templates/aws") (some scenarioTree)
            ordersRoot ordersConfig ordersWorld).2.fs p) = some k
          ↔ (p, k) ∈ scenarioTree.rendered ordersConfig ordersRoot))
      ∧ (∀ p, ¬ below ordersRoot p →
          (processTemplateDir scenarioEnv (str "templates/aws") (some scenarioTree) ordersRoot
            ordersConfig ordersWorld).2.fs p = ordersWorld.fs p)
      ∧ (scenarioTree.distinctNames ordersConfig = true →
          ((scenarioTree.rendered ordersConfig ordersRoot).map Prod.fst).Nodup) :=
  walk_mirrors_template_tree scenarioEnv ordersConfig scenarioTree (str "templates/aws")
    ordersRoot ordersWorld (by decide) (by decide) ordersWorld_empty_below (by decide)

/-! ## Identifiers -/

theorem hexByte_inj (a b : Nat) (ha : a < 256) (hb : b < 256) (h : hexByte a = hexByte b) :
    a = b := by
  simp only [hexByte, List.cons.injEq, and_true] at h
  obtain ⟨h1, h2⟩ := h
  split_ifs at h1 h2 <;> omega

theorem length_flatMap_hexByte (xs : Bytes) : (xs.flatMap hexByte).length = 2 * xs.length := by
  induction xs with
  | nil => rfl
  | cons x xs ih =>
    rw [List.flatMap_cons, List.length_append, ih]
    simp only [hexByte, List.length_cons, List.length_nil]
    omega

theorem flatMap_hexByte_inj (xs ys : Bytes) (hl : xs.length = ys.length)
    (hx : ∀ x ∈ xs, x < 256) (hy : ∀ y ∈ ys, y < 256)
    (h : xs.flatMap hexByte = ys.flatMap hexByte) : xs = ys := by
  induction xs generalizing ys with
  | nil =>
    cases ys with
    | nil => rfl
    | cons y ys => simp at hl
  | cons x xs ih =>
    cases ys with
    | nil => simp at hl
    | cons y ys =>
      rw [List.flatMap_cons, List.flatMap_cons] at h
      have h2 := List.append_inj h (by simp [hexByte])
      have e := hexByte_inj x y (hx x (by simp)) (hy y (by simp)) h2.1
      have l2 : xs.length = ys.length := by simpa using hl
      rw [e, ih ys l2 (fun a ha => hx a (List.mem_cons_of_mem _ ha))
        (fun a ha => hy a (List.mem_cons_of_mem _ ha)) h2.2]

theorem fill16_length (r : Bytes) : (fill16 r).length = 16 := by
  simp [fill16]

theorem fill16_lt (r : Bytes) : ∀ b ∈ fill16 r, b < 256 := by
  intro b hb
  have hb2 := List.mem_of_mem_take hb
  rcases List.mem_append.1 hb2 with h | h
  · obtain ⟨a, -, rfl⟩ := List.mem_map.1 h
    exact Nat.mod_lt _ (by decide)
  · have := (List.mem_replicate.1 h).2
    omega

theorem slices_cover (b : Bytes) (h : b.length = 16) :
    b = (b.drop 0).take 4 ++ ((b.drop 4).take 2 ++ ((b.drop 6).take 2
          ++ ((b.drop 8).take 2 ++ (b.drop 10).take 6))) := by
  have e16 : (b.drop 10).take 6 = b.drop 10 := List.take_of_length_le (by simp [h])
  have s1 : b.drop 8 = (b.drop 8).take 2 ++ b.drop 10 := by
    conv_lhs => rw [← List.take_append_drop 2 (b.drop 8)]
    rw [List.drop_drop]
  have s2 : b.drop 6 = (b.drop 6).take 2 ++ b.drop 8 := by
    conv_lhs => rw [← List.take_append_drop 2 (b.drop 6)]
    rw [List.drop_drop]
  have s3 : b.drop 4 = (b.drop 4).take 2 ++ b.drop 6 := by
    conv_lhs => rw [← List.take_append_drop 2 (b.drop 4)]
    rw [List.drop_drop]
  have s4 : b = (b.drop 0).take 4 ++ b.drop 4 := by
    conv_lhs => rw [← List.take_append_drop 4 b]
    rfl
  rw [e16, ← s1, ← s2, ← s3, ← s4]

theorem slice_length (b : Bytes) (h : b.length = 16) (lo n : Nat) (hn : lo + n ≤ 16) :
    ((b.drop lo).take n).length = n := by
  rw [List.length_take, List.length_drop, h]
  omega

/-- The text `generateGUID` returns determines the sixteen bytes it was made
from: two reads give one identifier only if they fill the buffer alike. -/
theorem generateGUID_inj (r1 r2 : Bytes) (h : generateGUID r1 = generateGUID r2) :
    fill16 r1 = fill16 r2 := by
  have l1 := fill16_length r1
  have l2 := fill16_length r2
  have lt1 := fill16_lt r1
  have lt2 := fill16_lt r2
  simp only [generateGUID, List.append_assoc] at h
  have len : ∀ (b : Bytes), b.length = 16 → ∀ lo n, lo + n ≤ 16 →
      (((b.drop lo).take n).flatMap hexByte).length = 2 * n := by
    intro b hb lo n hn
    rw [length_flatMap_hexByte, slice_length b hb lo n hn]
  have sub : ∀ (b : Bytes), (∀ x ∈ b, x < 256) → ∀ lo n, ∀ x ∈ (b.drop lo).take n, x < 256 :=
    fun b hb lo n x hx => hb x (List.mem_of_mem_drop (List.mem_of_mem_take hx))
  have a1 := List.append_inj h (by rw [len _ l1 0 4 (by omega), len _ l2 0 4 (by omega)])
  have a2 := List.append_inj a1.2 rfl
  have a3 := List.append_inj a2.2 (by rw [len _ l1 4 2 (by omega), len _ l2 4 2 (by omega)])
  have a4 := List.append_inj a3.2 rfl
  have a5 := List.append_inj a4.2 (by rw [len _ l1 6 2 (by omega), len _ l2 6 2 (by omega)])
  have a6 := List.append_inj a5.2 rfl
  have a7 := List.append_inj a6.2 (by rw [len _ l1 8 2 (by omega), len _ l2 8 2 (by omega)])
  have a8 := List.append_inj a7.2 rfl
  have sl : ∀ lo n, lo + n ≤ 16 →
      (((fill16 r1).drop lo).take n).flatMap hexByte
        = (((fill16 r2).drop lo).take n).flatMap hexByte →
      ((fill16 r1).drop lo).take n = ((fill16 r2).drop lo).take n := by
    intro lo n hn he
    exact flatMap_hexByte_inj _ _
      (by rw [slice_length _ l1 lo n hn, slice_length _ l2 lo n hn])
      (sub _ lt1 lo n) (sub _ lt2 lo n) he
  rw [slices_cover _ l1, slices_cover _ l2, sl 0 4 (by omega) a1.1, sl 4 2 (by omega) a3.1,
    sl 6 2 (by omega) a5.1, sl 8 2 (by omega) a7.1, sl 10 6 (by omega) a8.2]

/-! ## The context of each file (C8) -/

mutual
theorem asset_outputs_rendered (E : Env) (c : ProjectConfig) :
    ∀ (a : Asset) (base : Path) (k : Nat) (x : Path × Bytes), x ∈ a.outputs E c base k →
      (x.1, Kind.file) ∈ a.rendered c base
  | .file name content, base, k, x, hx => by
    simp only [Asset.outputs, List.mem_singleton] at hx
    rw [hx]
    simp [Asset.rendered]
  | .dir name children, base, k, x, hx => by
    simp only [Asset.outputs] at hx
    simp only [Asset.rendered, List.mem_cons]
    exact Or.inr (list_outputs_rendered E c children _ k x hx)
theorem list_outputs_rendered (E : Env) (c : ProjectConfig) :
    ∀ (l : AssetList) (base : Path) (k : Nat) (x : Path × Bytes), x ∈ l.outputs E c base k →
      (x.1, Kind.file) ∈ l.rendered c base
  | .nil, base, k, x, hx => by
    simp [AssetList.outputs] at hx
  | .cons a rest, base, k, x, hx => by
    simp only [AssetList.outputs, List.mem_append] at hx
    simp only [AssetList.rendered, List.mem_append]
    rcases hx with hx | hx
    · exact Or.inl (asset_outputs_rendered E c a base k x hx)
    · exact Or.inr (list_outputs_rendered E c rest base _ x hx)
end

mutual
theorem processEntry_outputs (E : Env) (c : ProjectConfig) :
    ∀ (a : Asset) (td : Bytes) (out : Path) (w : World),
      a.plainNames c = true → a.distinctNames c = true →
      os.Stat w.fs out = some os.Node.dir →
      (processEntry E c td out a w).1 = .ok () →
      ∀ x ∈ a.outputs E c out w.draws,
        (processEntry E c td out a w).2.fs x.1 = some (os.Node.file x.2)
  | .file name content, td, out, w, hp, hd, hs, hr => by
    simp only [Asset.plainNames] at hp
    intro x hx
    simp only [Asset.outputs, List.mem_singleton] at hx
    simp only [processEntry, join_plain out _ hp] at hr ⊢
    obtain ⟨fs1, hc, hw⟩ := processTemplateFile_ok E _ content _ c w hr
    rw [hw, hx]
    simp [os.FS.set]
  | .dir name children, td, out, w, hp, hd, hs, hr => by
    simp only [Asset.plainNames, Bool.and_eq_true] at hp
    simp only [Asset.distinctNames] at hd
    intro x hx
    simp only [Asset.outputs] at hx
    simp only [processEntry, join_plain out _ hp.1] at hr ⊢
    cases hm : os.MkdirAll w.fs (out.child (processFileName name c)) with
    | error e => simp [hm] at hr
    | ok fs1 =>
      simp only [hm] at hr ⊢
      have hstep : Mirrors [(out.child (processFileName name c), Kind.dir)] w.fs fs1 := by
        rcases mkdirAll_child w.fs fs1 out _ hp.1 hs hm with ⟨h1, h2⟩ | ⟨h1, h2⟩
        · rw [h2]; exact mirrors_dir_present w.fs _ h1
        · rw [h2]; exact mirrors_dir_new w.fs _ h1
      have hdir : os.Stat fs1 (out.child (processFileName name c)) = some os.Node.dir := by
        rw [stat_child fs1 out _ hp.1]
        exact (hstep.2.1 _).2 (Or.inr (by simp))
      exact processEntries_outputs E c children (sourcePathOf td name)
        (out.child (processFileName name c)) ⟨fs1, w.draws⟩ hp.2 hd hdir hr x hx
theorem processEntries_outputs (E : Env) (c : ProjectConfig) :
    ∀ (l : AssetList) (td : Bytes) (out : Path) (w : World),
      l.plainNames c = true → l.distinctNames c = true →
      os.Stat w.fs out = some os.Node.dir →
      (processEntries E c td out l w).1 = .ok () →
      ∀ x ∈ l.outputs E c out w.draws,
        (processEntries E c td out l w).2.fs x.1 = some (os.Node.file x.2)
  | .nil, td, out, w, hp, hd, hs, hr => by
    intro x hx
    simp [AssetList.outputs] at hx
  | .cons a rest, td, out, w, hp, hd, hs, hr => by
    simp only [AssetList.plainNames, Bool.and_eq_true] at hp
    simp only [AssetList.distinctNames, Bool.and_eq_true, decide_eq_true_eq] at hd
    intro x hx
    simp only [AssetList.outputs, List.mem_append] at hx
    simp only [processEntries] at hr ⊢
    cases hres : processEntry E c td out a w with
    | mk r w1 =>
      cases r with
      | error e => simp [hres] at hr
      | ok u =>
        simp only [hres] at hr ⊢
        have hok : (processEntry E c td out a w).1 = .ok () := by rw [hres]
        have h1 := processEntry_outputs E c a td out w hp.1 hd.1.2 hs hok
        have hm1 := processEntry_mirrors E c a td out w hp.1 hs hok
        have hdr := processEntry_draws E c a td out w hok
        rw [hres] at h1 hm1 hdr
        have hs1 := stat_of_mirrors _ _ _ out hm1 hs
        have hm2 := processEntries_mirrors E c rest td out w1 hp.2 hs1 hr
        rcases hx with hx | hx
        · rw [hm2.1 x.1 ?_]
          · exact h1 x hx
          · intro k hk
            obtain ⟨-, rel, e1⟩ := asset_rendered_shape c a out _
              (asset_outputs_rendered E c a out w.draws x hx)
            obtain ⟨-, rel2, n, hn, e2⟩ := list_rendered_shape c rest out _ hk
            simp only at e1 e2
            rw [e1] at e2
            have := top_segment_unique _ _ _ _ _ e2
            exact hd.1.1 (this ▸ hn)
        · have h2 := processEntries_outputs E c rest td out w1 hp.2 hd.2 hs1 hr
          simp only at hdr
          rw [hdr] at h2
          exact h2 x hx
end

/-- C8, as stated, fails: in one run over a root of two files, with an engine
that writes the value bound to `ProjectGuid`, the two files receive different
values: the context of the second file is built from later reads of the
random source than that of the first. -/
theorem guids_differ_between_files_of_one_run :
    (GenerateProject guidEnv ordersConfig emptyWorld).1 = .ok ()
      ∧ (GenerateProject guidEnv ordersConfig emptyWorld).2.fs (ordersRoot.child (str "a.sln"))
          = some (os.Node.file (str "00000000-0000-0000-0000-000000000000"))
      ∧ (GenerateProject guidEnv ordersConfig emptyWorld).2.fs (ordersRoot.child (str "b.csproj"))
          = some (os.Node.file (str "05050505-0505-0505-0505-050505050505"))
      ∧ (templateData guidEnv.tables guidEnv.rand 0 ordersConfig).ProjectGuid
          ≠ (templateData guidEnv.tables guidEnv.rand 5 ordersConfig).ProjectGuid := by
  decide

/-- C8, amended: the context is built anew for every file.  A successful run
of `processTemplateDir` over a tree makes five reads of the source for each of
its files.  When the names of the tree are rendered to plain segments, no two
in one directory alike, every file of the tree is left in the destination with
the text `Execute` writes on the context built at the reads made when the walk
reached that file: the first file at the reads before the run, each later one
five reads further for every file before it.  The five identifier values of a
context are `generateGUID` of the next five reads, and `generateGUID` gives
one text for two reads only if they fill the buffer alike, so contexts built
at reads that differ hold different identifiers.  All other keys do not
depend on the reads and agree across the files of a run. -/
theorem context_rebuilt_for_every_file (E : Env) (c : ProjectConfig) (T : AssetList)
    (td : Bytes) (out : Path) (w : World)
    (hrun : (processTemplateDir E td (some T) out c w).1 = .ok ()) :
    (processTemplateDir E td (some T) out c w).2.draws = w.draws + 5 * T.fileCount
      ∧ (T.plainNames c = true → T.distinctNames c = true →
          os.Stat w.fs out = some os.Node.dir →
          ∀ x ∈ T.outputs E c out w.draws,
            (processTemplateDir E td (some T) out c w).2.fs x.1 = some (os.Node.file x.2))
      ∧ (∀ sp content dest w0, (processTemplateFile E sp content dest c w0).1 = .ok () →
          (processTemplateFile E sp content dest c w0).2.fs dest
              = some (os.Node.file
                  (E.engine.Execute content (templateData E.tables E.rand w0.draws c)).1)
            ∧ (processTemplateFile E sp content dest c w0).2.draws = w0.draws + 5)
      ∧ (∀ k k2, (templateData E.tables E.rand k c).clearGuids
          = (templateData E.tables E.rand k2 c).clearGuids)
      ∧ (∀ k, (templateData E.tables E.rand k c).ProjectGuid = generateGUID (E.rand k)
          ∧ (templateData E.tables E.rand k c).AppHostGuid = generateGUID (E.rand (k + 1))
          ∧ (templateData E.tables E.rand k c).ApiGuid = generateGUID (E.rand (k + 2))
          ∧ (templateData E.tables E.rand k c).ServiceDefaultsGuid = generateGUID (E.rand (k + 3))
          ∧ (templateData E.tables E.rand k c).WorkerGuid = generateGUID (E.rand (k + 4)))
      ∧ (∀ r1 r2, generateGUID r1 = generateGUID r2 ↔ fill16 r1 = fill16 r2)
      ∧ (∀ k k2, fill16 (E.rand k) ≠ fill16 (E.rand k2) →
          (templateData E.tables E.rand k c).ProjectGuid
            ≠ (templateData E.tables E.rand k2 c).ProjectGuid) := by
  refine ⟨processEntries_draws E c T td out w hrun, ?_, ?_, fun _ _ => rfl,
    fun _ => ⟨rfl, rfl, rfl, rfl, rfl⟩, ?_, ?_⟩
  · intro hp hd hs
    exact processEntries_outputs E c T td out w hp hd hs hrun
  · intro sp content dest w0 h
    obtain ⟨fs1, -, hw⟩ := processTemplateFile_ok E sp content dest c w0 h
    rw [hw]
    simp [os.FS.set]
  · intro r1 r2
    constructor
    · exact generateGUID_inj r1 r2
    · intro h
      simp only [generateGUID, h]
  · intro k k2 hne hg
    exact hne (generateGUID_inj _ _ hg)

theorem context_rebuilt_for_every_file_witness :
    ((processTemplateDir guidEnv (str "templates/aws") (some twoFileTree) ordersRoot ordersConfig
        ordersWorld).2.draws = ordersWorld.draws + 5 * twoFileTree.fileCount
      ∧ twoFileTree.fileCount = 2)
    ∧ (twoFileTree.outputs guidEnv ordersConfig ordersRoot ordersWorld.draws
        = [(ordersRoot.child (str "a.sln"), generateGUID (guidEnv.rand 0)),
           (ordersRoot.child (str "b.csproj"), generateGUID (guidEnv.rand 5))]
      ∧ ∀ x ∈ twoFileTree.outputs guidEnv ordersConfig ordersRoot ordersWorld.draws,
          (processTemplateDir guidEnv (str "templates/aws") (some twoFileTree) ordersRoot
            ordersConfig ordersWorld).2.fs x.1 = some (os.Node.file x.2))
    ∧ (templateData guidEnv.tables guidEnv.rand 0 ordersConfig).ProjectGuid
        ≠ (templateData guidEnv.tables guidEnv.rand 5 ordersConfig).ProjectGuid :=
  have h := context_rebuilt_for_every_file guidEnv ordersConfig twoFileTree (str "templates/aws")
    ordersRoot ordersWorld (by decide)
  ⟨⟨h.1, by decide⟩, ⟨by decide, h.2.1 (by decide) (by decide) (by decide)⟩,
    h.2.2.2.2.2.2 0 5 (by decide)⟩
